import Mathlib

/-!
# MasterMindGo: a shallow embedding of `mastermind.go`

The Go program is a Mastermind solver.  This file embeds its data model
(`Color`, `Guess`, `Answer`, `Fact`, `FrequencyList`), the comparator `Compare`,
the constraint filter (`Allows`, `AllowsAll`), the scorer (`Incr`, `InfoValue`),
the selector `MakeGuess` and the game loop `Play`, and proves properties of them.

Conventions of the embedding:

* a Go array `[n]T` is a `Mathlib.Vector T n`; an index expression `a[i]` with a
  loop index `i < n` is `a.get i` with `i : Fin n`;
* a Go `for i := 0; i < n; i++` loop is a `List.foldl` over `List.finRange n`,
  the loop variables being the accumulator;
* Go `int` values are `Int` (no arithmetic in the program comes near 2^63);
* `float64` values are elements of an arbitrary linearly ordered field `F`, and
  `math.Log` is a parameter `log : F → F` (instantiate `F` with the reals and
  `log` with `Real.log` for the mathematical reading);
* a run-time failure (index out of range) is `none`;
* the unbounded loop of `Play` takes a fuel argument.
-/

namespace MasterMind

/-! ## Data model -/

/-- Go: `type Color int`. -/
abbrev Color := Int

def Empty : Color := 0
def Blue : Color := 1
def Red : Color := 2
def Black : Color := 3
def White : Color := 4
def Green : Color := 5
def Yellow : Color := 6

/-- Go: `const Npegs = 4`. -/
def Npegs : Nat := 4

/-- Go: `const Ncolors = int(Yellow + 1)`. -/
def Ncolors : Nat := 7

/-- Go: `type Guess [Npegs]Color`. -/
abbrev Guess := Mathlib.Vector Color Npegs

/-- Go: `type Status int` with the constants `Notfound`, `Found`, `Impossible`. -/
inductive Status where
  | Notfound
  | Found
  | Impossible
deriving DecidableEq, Repr

/-- Go: `type Answer struct { blacks int; whites int }`. -/
structure Answer where
  blacks : Int
  whites : Int
deriving DecidableEq, Repr

/-- Go: `type Fact struct { guess Guess; answer Answer }`. -/
structure Fact where
  guess : Guess
  answer : Answer
deriving DecidableEq

/-- Go: `const frequencyListSize = (Npegs + 1) * (Npegs + 1)`. -/
def frequencyListSize : Nat := (Npegs + 1) * (Npegs + 1)

/-- Go: `type FrequencyList [frequencyListSize]int`. -/
abbrev FrequencyList := Mathlib.Vector Int frequencyListSize

/-- Go: `func Index(answer Answer) int`. -/
def Index (answer : Answer) : Int :=
  ((Npegs : Int) + 1) * answer.blacks + answer.whites

/-! ## Comparator -/

/-- The local variables of `Compare`: `blacks`, `whites`, `used1`, `used2`. -/
structure CompareState where
  blacks : Int
  whites : Int
  used1 : Mathlib.Vector Bool Npegs
  used2 : Mathlib.Vector Bool Npegs

/-- Body of the first loop of `Compare`, at index `i`. -/
def blackStep (g1 g2 : Guess) (s : CompareState) (i : Fin Npegs) : CompareState :=
  if g1.get i = g2.get i then
    { blacks := s.blacks + 1, whites := s.whites,
      used1 := s.used1.set i true, used2 := s.used2.set i true }
  else s

/-- Body of the inner loop of the second pass of `Compare`, at indices `i`, `j`. -/
def whiteStep (g1 g2 : Guess) (i : Fin Npegs) (s : CompareState) (j : Fin Npegs) :
    CompareState :=
  if i ≠ j ∧ s.used1.get i = false ∧ s.used2.get j = false ∧ g1.get i = g2.get j then
    { blacks := s.blacks, whites := s.whites + 1,
      used1 := s.used1.set i true, used2 := s.used2.set j true }
  else s

/-- The inner loop `for j := 0; j < Npegs; j++` of the second pass, for a fixed `i`. -/
def whiteRow (g1 g2 : Guess) (s : CompareState) (i : Fin Npegs) : CompareState :=
  (List.finRange Npegs).foldl (whiteStep g1 g2 i) s

/-- The state of `Compare` after both passes. -/
def compareLoops (g1 g2 : Guess) : CompareState :=
  let s0 : CompareState :=
    { blacks := 0, whites := 0,
      used1 := Mathlib.Vector.replicate Npegs false,
      used2 := Mathlib.Vector.replicate Npegs false }
  let s1 := (List.finRange Npegs).foldl (blackStep g1 g2) s0
  (List.finRange Npegs).foldl (whiteRow g1 g2) s1

/-- Go: `func Compare(g1 Guess, g2 Guess) Answer`. -/
def Compare (g1 g2 : Guess) : Answer :=
  let s := compareLoops g1 g2
  { blacks := s.blacks, whites := s.whites }

/-! ## Constraint store -/

/-- Go: `func Allows(fact Fact, guess Guess) bool`. -/
def Allows (fact : Fact) (guess : Guess) : Bool :=
  decide (fact.answer = Compare fact.guess guess)

/-- Go: `func AllowsAll(facts []Fact, guess Guess) bool`: the loop returns `false`
at the first fact that does not allow the guess. -/
def AllowsAll : List Fact → Guess → Bool
  | [], _ => true
  | fact :: rest, guess => if !Allows fact guess then false else AllowsAll rest guess

/-! ## Frequency lists and the entropy score -/

/-- Go: `func (fl FrequencyList) Incr(answer Answer)`, body `fl[Index(answer)] += 1`.
The receiver `fl` is an array received by value, so the method works on its own
copy of the caller's list.  The result is `none` when the index is out of range
(a run-time failure), and otherwise the method's copy after the increment; that
copy goes away when the method returns. -/
def Incr (fl : FrequencyList) (answer : Answer) : Option FrequencyList :=
  if h : 0 ≤ Index answer ∧ Index answer < (frequencyListSize : Int) then
    let i : Fin frequencyListSize := ⟨(Index answer).toNat, by omega⟩
    some (fl.set i (fl.get i + 1))
  else none

/-- Go: `func CountAllBlacks(fl FrequencyList) int`. -/
def CountAllBlacks (fl : FrequencyList) : Int :=
  fl.get ⟨(Npegs + 1) * Npegs + 0, by decide⟩

section Scoring

variable {F : Type} [LinearOrderedField F]

/-- Go: `func InfoValue(fl FrequencyList) float64`.  The accumulator of the fold
is the pair `(r, ntot)` of the loop `for _, v := range fl`. -/
def InfoValue (log : F → F) (fl : FrequencyList) : F :=
  let acc : F × F := fl.toList.foldl
    (fun (acc : F × F) (v : Int) =>
      let ntot := acc.2 + 1
      if v ≠ 0 ∧ v ≠ 1 then (acc.1 - (v : F) * log (v : F), ntot) else (acc.1, ntot))
    (0, 0)
  let r := acc.1
  let ntot := acc.2
  if ntot > 0 then (r / ntot + log ntot) / log 2 else 0

end Scoring

/-! ## Codeword space -/

/-- Go: `func calculateAllGuessesInner(result *[]Guess, prevColors []Color)`.
The slice behind `result` is threaded through the calls; the first argument
bounds the recursion depth (`none` when it is used up). -/
def calculateAllGuessesInner : Nat → List Guess → List Color → Option (List Guess)
  | 0, _, _ => none
  | fuel + 1, result, prevColors =>
    if h : prevColors.length = Npegs then
      some (result ++ [⟨prevColors, h⟩])
    else
      (List.range Ncolors).foldlM
        (fun res (i : Nat) => calculateAllGuessesInner fuel res (prevColors ++ [(i : Color)]))
        result

/-- Go: `func calculateAllGuesses() []Guess`. -/
def calculateAllGuesses : List Guess :=
  (calculateAllGuessesInner (Npegs + 1) [] []).getD []

/-- Go: `var allGuesses = calculateAllGuesses()`. -/
def allGuesses : List Guess := calculateAllGuesses

/-- Go: `var fixedFirstGuess = Guess{Yellow, Blue, Red, Black}`. -/
def fixedFirstGuess : Guess := ⟨[Yellow, Blue, Red, Black], rfl⟩

/-- Go: `const randomFirstGuess = false`. -/
def randomFirstGuess : Bool := false

/-- Go: `func firstGuess() Guess`.  The argument stands for the guess that the
random branch would draw; with `randomFirstGuess = false` it is not used. -/
def firstGuess (drawn : Guess) : Guess :=
  if !randomFirstGuess then fixedFirstGuess else drawn

/-! ## Guess selector -/

/-- The loop `for _, solution := range possibleSolutions` of one scoring task of
`MakeGuess`, for the candidate `c = allGuesses[i]`; the accumulator is the task's
variable `fl`.  `fl.Incr(answer)` hands a copy of `fl` to `Incr`, so after the
call the task's `fl` is what it was before. -/
def scoreLoop (c : Guess) (possibleSolutions : List Guess) : Option FrequencyList :=
  possibleSolutions.foldlM
    (fun fl solution =>
      match Incr fl (Compare c solution) with
      | none => none
      | some _ => some fl)
    (Mathlib.Vector.replicate frequencyListSize 0)

section Selector

variable {F : Type} [LinearOrderedField F]

/-- The scoring pass of `MakeGuess`: `infoValues[i] = InfoValue(fl)` for every
index `i` of `allGuesses` (the tasks are independent; each writes its own slot). -/
def scoreAll (log : F → F) (possibleSolutions : List Guess) : Option (List F) :=
  allGuesses.mapM (fun c => (scoreLoop c possibleSolutions).map (InfoValue log))

/-- The loop `for _, v := range infoValues` of `MakeGuess` that finds the maximum. -/
def maxLoop (maxInfoValue : F) (infoValues : List F) : F :=
  infoValues.foldl (fun m v => if v > m then v else m) maxInfoValue

/-- The loop `for idx, guess := range allGuesses` at the end of `MakeGuess`, run on
the codewords paired with their scores, from index `idx` with the current
`maxIdx`: `Sum.inl guess` is the `return` inside the loop, `Sum.inr maxIdx` the
value of `maxIdx` when the loop runs to its end. -/
def selectLoop (facts : List Fact) (maxInfoValue : F) :
    List (Guess × F) → Nat → Nat → Guess ⊕ Nat
  | [], _, maxIdx => Sum.inr maxIdx
  | (guess, v) :: rest, idx, maxIdx =>
    if v = maxInfoValue then
      if AllowsAll facts guess then Sum.inl guess
      else selectLoop facts maxInfoValue rest (idx + 1) idx
    else selectLoop facts maxInfoValue rest (idx + 1) maxIdx

/-- Go: `func MakeGuess(facts []Fact) (Guess, Status, int)`.  `none` is a run-time
failure.  `math.Pow(float64(Ncolors), float64(Npegs))` is the exact power; the
argument of `firstGuess` is immaterial (its random branch is switched off). -/
def MakeGuess (log : F → F) (facts : List Fact) : Option (Guess × Status × Int) :=
  let guess : Guess := Mathlib.Vector.replicate Npegs 0
  if facts.length = 0 then
    some (firstGuess guess, Status.Notfound, (Ncolors : Int) ^ Npegs)
  else
    let possibleSolutions := allGuesses.filter (AllowsAll facts)
    match possibleSolutions with
    | [solution] => some (solution, Status.Found, 1)
    | [] => some (guess, Status.Impossible, 0)
    | _ =>
      match scoreAll log possibleSolutions with
      | none => none
      | some infoValues =>
        match infoValues with
        | [] => none
        | v0 :: _ =>
          let maxInfoValue := maxLoop v0 infoValues
          match selectLoop facts maxInfoValue (allGuesses.zip infoValues) 0 0 with
          | Sum.inl g => some (g, Status.Notfound, (possibleSolutions.length : Int))
          | Sum.inr maxIdx =>
            match allGuesses.get? maxIdx with
            | none => none
            | some g => some (g, Status.Notfound, (possibleSolutions.length : Int))

end Selector

/-! ## Game loop -/

/-- Go: `func AllBlacks(a Answer) bool`. -/
def AllBlacks (a : Answer) : Bool :=
  decide (a.blacks = (Npegs : Int))

/-- The variables of the loop of `Play`. -/
structure PlayState where
  facts : List Fact
  guess : Guess
  state : Status
  counter : Int

/-- How `Play` ends: the oracle quits, the solution is reported with the step
counter, no solution is possible, or a run-time failure. -/
inductive PlayResult where
  | quit
  | found (guess : Guess) (counter : Int)
  | noSolution
  | failed
deriving DecidableEq

/-- One pass of the loop of `Play`: either the variables after the pass, or the way
the function ends. -/
inductive PlayNext where
  | next (st : PlayState)
  | done (r : PlayResult)

/-- The statements of `Play` after its loop. -/
def playReport (guess : Guess) (state : Status) (counter : Int) : PlayResult :=
  if state = Status.Found then PlayResult.found guess counter else PlayResult.noSolution

section Loop

variable {F : Type} [LinearOrderedField F]

/-- The loop test `state == Notfound` of `Play` followed by one run of its body. -/
def playBody (log : F → F) (ask : Guess → Answer × Bool) (st : PlayState) : PlayNext :=
  if st.state = Status.Notfound then
    match MakeGuess log st.facts with
    | none => PlayNext.done PlayResult.failed
    | some (guess, state, _) =>
      if state = Status.Impossible then
        PlayNext.done (playReport guess state st.counter)
      else
        let (answer, quit) := ask guess
        if quit then PlayNext.done PlayResult.quit
        else if AllBlacks answer then
          PlayNext.next
            { facts := st.facts, guess := guess, state := Status.Found,
              counter := st.counter + 1 }
        else
          PlayNext.next
            { facts := st.facts ++ [{ guess := guess, answer := answer }], guess := guess,
              state := state, counter := st.counter + 1 }
  else PlayNext.done (playReport st.guess st.state st.counter)

/-- The loop of `Play`, with at most `fuel` tests of the loop condition. -/
def playLoop (log : F → F) (ask : Guess → Answer × Bool) : Nat → PlayState → Option PlayResult
  | 0, _ => none
  | fuel + 1, st =>
    match playBody log ask st with
    | PlayNext.done r => some r
    | PlayNext.next st1 => playLoop log ask fuel st1

/-- The variables of `Play` before its loop. -/
def playInit : PlayState :=
  { facts := [], guess := Mathlib.Vector.replicate Npegs 0, state := Status.Notfound,
    counter := 0 }

/-- Go: `func Play(ask func(Guess) (Answer, bool))`; `none` when the fuel runs out. -/
def Play (log : F → F) (ask : Guess → Answer × Bool) (fuel : Nat) : Option PlayResult :=
  playLoop log ask fuel playInit

/-- The oracle `ask` that `PlayAutomatically` builds for `solution`. -/
def autoAsk (solution : Guess) (guess : Guess) : Answer × Bool :=
  (Compare guess solution, false)

/-- The variables of the loop of `Play` after `n` passes; they stay as they are once
the function has ended. -/
def playIter (log : F → F) (ask : Guess → Answer × Bool) : Nat → PlayState
  | 0 => playInit
  | n + 1 =>
    match playBody log ask (playIter log ask n) with
    | PlayNext.next st => st
    | PlayNext.done _ => playIter log ask n

/-- Go: `func PlayAutomatically(solution Guess)`. -/
def PlayAutomatically (log : F → F) (solution : Guess) (fuel : Nat) : Option PlayResult :=
  Play log (autoAsk solution) fuel

end Loop

/-! ## Definitions used to state the properties -/

/-- The colors of `g` at the positions that `used` does not mark. -/
def unusedColors (g : Guess) (used : Mathlib.Vector Bool Npegs) : Multiset Color :=
  ((Finset.univ : Finset (Fin Npegs)).filter (fun i => used.get i = false)).val.map g.get

/-- A pair of positions that the second pass of `Compare` can no longer match. -/
def Blocked (g1 g2 : Guess) (s : CompareState) (p : Fin Npegs × Fin Npegs) : Prop :=
  s.used1.get p.1 = true ∨ s.used2.get p.2 = true ∨ g1.get p.1 ≠ g2.get p.2

/-- The number of positions at which two guesses carry the same color. -/
def samePositions (g1 g2 : Guess) : Nat :=
  ((List.finRange Npegs).filter (fun i => g1.get i = g2.get i)).length

/-- The sum, over the colors `c` of `g1`, of the smaller of the numbers of
occurrences of `c` in `g1` and in `g2` (a color that is not in `g1` adds 0). -/
def commonColors (g1 g2 : Guess) : Nat :=
  ((g1.toList.dedup).map (fun c => min (g1.toList.count c) (g2.toList.count c))).sum

/-- The reference Mastermind score of the specification: `blacks` counts the
positions with equal colors, and `blacks + whites` is the per-color
frequency-min sum. -/
def referenceScore (g1 g2 : Guess) : Answer :=
  { blacks := (samePositions g1 g2 : Int),
    whites := (commonColors g1 g2 : Int) - (samePositions g1 g2 : Int) }

/-- The invariant of the first loop of `Compare` once the indices `done` are
processed; `K` is the number of common colors of the two guesses. -/
def BlackInv (g1 g2 : Guess) (K : Int) (done : List (Fin Npegs)) (s : CompareState) : Prop :=
  s.whites = 0 ∧
  (∀ i, s.used1.get i = true ↔ (i ∈ done ∧ g1.get i = g2.get i)) ∧
  (∀ i, s.used2.get i = s.used1.get i) ∧
  s.blacks = ((done.filter (fun i => g1.get i = g2.get i)).length : Int) ∧
  s.blacks + (Multiset.card (unusedColors g1 s.used1 ∩ unusedColors g2 s.used2) : Int) = K

/-- The invariant of the second pass of `Compare`: `blacks` keeps the value `b` of
the first pass, `whites` is not negative, the matches made plus the matches still
possible are `K`, and no position can be matched with itself. -/
def WhiteInv (g1 g2 : Guess) (b K : Int) (s : CompareState) : Prop :=
  s.blacks = b ∧ 0 ≤ s.whites ∧
  s.blacks + s.whites +
    (Multiset.card (unusedColors g1 s.used1 ∩ unusedColors g2 s.used2) : Int) = K ∧
  ∀ i, Blocked g1 g2 s (i, i)

/-- The multiset of the colors of a guess. -/
def colorsOf (g : Guess) : Multiset Color := (g.toList : Multiset Color)

/-- All lists of `k` colors with values `0 .. Ncolors - 1`, in lexicographic order. -/
def enumLists : Nat → List (List Color)
  | 0 => [[]]
  | k + 1 =>
    (List.range Ncolors).flatMap (fun c => (enumLists k).map (fun l => (c : Color) :: l))

/-- All vectors of `k` colors with values `0 .. Ncolors - 1`, in lexicographic order. -/
def enumVec : (k : Nat) → List (Mathlib.Vector Color k)
  | 0 => [Mathlib.Vector.nil]
  | k + 1 =>
    (List.range Ncolors).flatMap
      (fun c => (enumVec k).map (Mathlib.Vector.cons (c : Color)))

/-- The frequency distribution of the specification for the candidate `c` against
the possible secrets: the number of possible secrets `s` with `Compare c s = r`. -/
def frequencyCount (c : Guess) (possibleSolutions : List Guess) (r : Answer) : Nat :=
  (possibleSolutions.filter (fun s => decide (Compare c s = r))).length

/-- The Shannon entropy in bits of the bucket distribution, as the specification
states it: with `N` the sum of all bucket counts, it is
`log2 N - (1 / N) * Σ count * log2 count` when `N > 0`, and 0 when `N = 0`. -/
def shannonEntropy {F : Type} [LinearOrderedField F] (log : F → F) (fl : FrequencyList) : F :=
  let N : F := ((fl.toList.sum : Int) : F)
  if N > 0 then
    log N / log 2 - 1 / N * (fl.toList.map (fun v => (v : F) * (log (v : F) / log 2))).sum
  else 0

/-- The term that `InfoValue` subtracts for a bucket with the count `v`. -/
def bucketTerm {F : Type} [LinearOrderedField F] (log : F → F) (v : Int) : F :=
  if v ≠ 0 ∧ v ≠ 1 then (v : F) * log (v : F) else 0

/-- The facts that self-play against `secret` can record. -/
def SelfFacts (secret : Guess) (facts : List Fact) : Prop :=
  ∀ f ∈ facts, ∃ g, f = { guess := g, answer := Compare g secret }

/-- The guess that `MakeGuess` proposes when self-play has recorded `facts`: the
opening guess, or else the first codeword that satisfies the facts. -/
def nextGuess (facts : List Fact) : Option Guess :=
  match facts with
  | [] => some fixedFirstGuess
  | _ :: _ => allGuesses.find? (AllowsAll facts)

/-- `AllowsAll`, computed with the reference score. -/
def AllowsAllRef (facts : List Fact) (g : Guess) : Bool :=
  facts.all (fun f => decide (f.answer = referenceScore f.guess g))

/-- `nextGuess`, computed with the reference score on the explicit enumeration. -/
def nextGuessRef (facts : List Fact) : Option Guess :=
  match facts with
  | [] => some fixedFirstGuess
  | _ :: _ => (enumVec Npegs).find? (AllowsAllRef facts)

/-- The step counter that self-play against `secret` reports, computed round by
round from `nextGuessRef`, starting with the recorded `facts` and the counter
`counter`; `none` when `fuel` rounds do not reach the secret. -/
def selfPlayRounds (secret : Guess) : Nat → List Fact → Int → Option Int
  | 0, _, _ => none
  | fuel + 1, facts, counter =>
    match nextGuessRef facts with
    | none => none
    | some g =>
      if g = secret then some (counter + 1)
      else
        selfPlayRounds secret fuel
          (facts ++ [{ guess := g, answer := referenceScore g secret }]) (counter + 1)

/-- The frequency list that the scoring pass is meant to build for the candidate
`c`: for each possible secret the bucket of `Compare c secret` is raised by one
(`Incr` applied to the list itself). -/
def countedFrequencyList (c : Guess) (possibleSolutions : List Guess) : FrequencyList :=
  possibleSolutions.foldl (fun fl sol => (Incr fl (Compare c sol)).getD fl)
    (Mathlib.Vector.replicate frequencyListSize 0)

section TieBreak

variable {F : Type} [LinearOrderedField F]

/-- The pairs of a codeword and its score, in enumeration order, whose score is `m`. -/
def maxScoring (m : F) (pairs : List (Guess × F)) : List (Guess × F) :=
  pairs.filter (fun p => decide (p.2 = m))

/-- The pairs of a codeword and its score, in enumeration order, whose score is `m`
and whose codeword satisfies the facts. -/
def maxAllowed (facts : List Fact) (m : F) (pairs : List (Guess × F)) : List (Guess × F) :=
  pairs.filter (fun p => decide (p.2 = m) && AllowsAll facts p.1)

/-- The tie-break rule in the words of the specification: the last codeword in
enumeration order that attains the score `m` and satisfies the facts, if there is
one; otherwise the last codeword in enumeration order that attains the score `m`. -/
def lastTieBreak (facts : List Fact) (m : F) (pairs : List (Guess × F)) : Option Guess :=
  match (maxAllowed facts m pairs).getLast? with
  | some p => some p.1
  | none => ((maxScoring m pairs).getLast?).map Prod.fst

/-- The tie-break rule with `first` for the codewords that satisfy the facts: the
first codeword in enumeration order that attains the score `m` and satisfies the
facts, if there is one; otherwise the last codeword in enumeration order that
attains the score `m` (and, when no score is `m`, the first codeword of all). -/
def firstTieBreak (facts : List Fact) (m : F) (pairs : List (Guess × F)) : Option Guess :=
  match (maxAllowed facts m pairs).head? with
  | some p => some p.1
  | none =>
    match (maxScoring m pairs).getLast? with
    | some p => some p.1
    | none => (pairs.head?).map Prod.fst

/-- The value of `maxIdx` when the scan at the end of `MakeGuess` never returns: the
index of the last score that is `m`, counted from `idx`, or the `maxIdx` it
started with. -/
def lastIdx (m : F) : List (Guess × F) → Nat → Nat → Nat
  | [], _, maxIdx => maxIdx
  | (_, v) :: rest, idx, maxIdx => lastIdx m rest (idx + 1) (if v = m then idx else maxIdx)

/-- The guess that the last statements of `MakeGuess` return for the codewords and
scores `pairs` and the maximum `m`: the guess returned inside the scan, or else
the codeword at `maxIdx`. -/
def selectGuess (facts : List Fact) (m : F) (pairs : List (Guess × F)) : Option Guess :=
  match selectLoop facts m pairs 0 0 with
  | Sum.inl g => some g
  | Sum.inr maxIdx => (pairs.map Prod.fst).get? maxIdx

end TieBreak

/-! ## Loops -/

theorem foldl_prefix_inv {σ ι : Type} (f : σ → ι → σ) (Inv : List ι → σ → Prop)
    (hstep : ∀ done x s, x ∉ done → Inv done s → Inv (done ++ [x]) (f s x)) :
    ∀ (l : List ι) (s0 : σ), l.Nodup → Inv [] s0 → Inv l (l.foldl f s0) := by
  intro l
  induction l using List.reverseRecOn with
  | nil => intro s0 _ h; simpa using h
  | append_singleton l x ih =>
    intro s0 hnd h0
    rw [List.foldl_append]
    have hnd2 := List.nodup_append.mp hnd
    have hx : x ∉ l := fun hm => hnd2.2.2 hm (List.mem_singleton_self x)
    exact hstep l x _ hx (ih s0 hnd2.1 h0)

theorem foldl_blocking {σ ι κ : Type} (f : σ → ι → σ) (Inv : σ → Prop) (B : σ → κ → Prop)
    (keys : ι → κ → Prop)
    (h1 : ∀ s x, Inv s → Inv (f s x))
    (h2 : ∀ s x k, Inv s → keys x k → B (f s x) k)
    (h3 : ∀ s x k, Inv s → B s k → B (f s x) k) :
    ∀ (l : List ι) (s : σ), Inv s →
      Inv (l.foldl f s) ∧ (∀ x ∈ l, ∀ k, keys x k → B (l.foldl f s) k) ∧
        (∀ k, B s k → B (l.foldl f s) k) := by
  intro l
  induction l with
  | nil => intro s h; exact ⟨h, by simp, fun _ hk => hk⟩
  | cons a l ih =>
    intro s h
    obtain ⟨i1, i2, i3⟩ := ih (f s a) (h1 s a h)
    refine ⟨i1, ?_, fun k hk => i3 k (h3 s a k h hk)⟩
    intro x hx k hk
    rcases List.mem_cons.mp hx with rfl | hx
    · exact i3 k (h2 s x k h hk)
    · exact i2 x hx k hk

/-! ## The comparator -/

theorem unusedColors_set (g : Guess) (used : Mathlib.Vector Bool Npegs) (i : Fin Npegs)
    (h : used.get i = false) :
    unusedColors g (used.set i true) = (unusedColors g used).erase (g.get i) := by
  have hf : (Finset.univ : Finset (Fin Npegs)).filter (fun j => (used.set i true).get j = false)
      = ((Finset.univ : Finset (Fin Npegs)).filter (fun j => used.get j = false)).erase i := by
    ext j
    simp only [Finset.mem_filter, Finset.mem_univ, true_and, Finset.mem_erase,
      Mathlib.Vector.get_set_eq_if]
    by_cases hji : i = j
    · subst hji; simp
    · have : j ≠ i := fun e => hji e.symm
      simp [hji, this]
  have hm : i ∈ ((Finset.univ : Finset (Fin Npegs)).filter (fun j => used.get j = false)).val := by
    simp [h]
  unfold unusedColors
  rw [hf, Finset.erase_val, Multiset.map_erase_of_mem _ _ hm]

theorem mem_unusedColors (g : Guess) (used : Mathlib.Vector Bool Npegs) (i : Fin Npegs)
    (h : used.get i = false) : g.get i ∈ unusedColors g used := by
  unfold unusedColors
  exact Multiset.mem_map.mpr ⟨i, by simp [h], rfl⟩

theorem card_inter_erase (A B : Multiset Color) (c : Color) (hA : c ∈ A) (hB : c ∈ B) :
    Multiset.card ((A.erase c) ∩ (B.erase c)) + 1 = Multiset.card (A ∩ B) := by
  conv_rhs => rw [← Multiset.cons_erase hA, Multiset.cons_inter_of_pos _ hB]
  simp

/-- Marking an unused position of each guess with the same color lowers the number
of common unused colors by one. -/
theorem card_unused_mark (g1 g2 : Guess) (u1 u2 : Mathlib.Vector Bool Npegs) (i j : Fin Npegs)
    (h1 : u1.get i = false) (h2 : u2.get j = false) (hc : g1.get i = g2.get j) :
    Multiset.card (unusedColors g1 (u1.set i true) ∩ unusedColors g2 (u2.set j true)) + 1
      = Multiset.card (unusedColors g1 u1 ∩ unusedColors g2 u2) := by
  rw [unusedColors_set g1 u1 i h1, unusedColors_set g2 u2 j h2, ← hc]
  exact card_inter_erase _ _ _ (mem_unusedColors g1 u1 i h1)
    (hc ▸ mem_unusedColors g2 u2 j h2)

theorem blackStep_inv (g1 g2 : Guess) (K : Int) (done : List (Fin Npegs)) (i : Fin Npegs)
    (s : CompareState) (hi : i ∉ done) (h : BlackInv g1 g2 K done s) :
    BlackInv g1 g2 K (done ++ [i]) (blackStep g1 g2 s i) := by
  obtain ⟨hw, hu, h21, hb, hK⟩ := h
  unfold blackStep
  by_cases hc : g1.get i = g2.get i
  · have hu1 : s.used1.get i = false := by
      cases hv : s.used1.get i with
      | false => rfl
      | true => exact absurd ((hu i).mp hv).1 hi
    have hu2 : s.used2.get i = false := by rw [h21 i, hu1]
    have hm := card_unused_mark g1 g2 s.used1 s.used2 i i hu1 hu2 hc
    rw [if_pos hc]
    refine ⟨hw, ?_, ?_, ?_, ?_⟩
    · intro j
      simp only [Mathlib.Vector.get_set_eq_if, List.mem_append, List.mem_singleton]
      by_cases hij : i = j
      · subst hij; simp [hc]
      · have hji : j ≠ i := fun e => hij e.symm
        simp only [hij, if_false, hji, or_false]
        exact hu j
    · intro j
      simp only [Mathlib.Vector.get_set_eq_if]
      by_cases hij : i = j
      · simp [hij]
      · simp [hij, h21 j]
    · simp only [List.filter_append, List.length_append]
      simp [hc, hb]
    · simp only
      omega
  · rw [if_neg hc]
    refine ⟨hw, ?_, h21, ?_, hK⟩
    · intro j
      rw [hu j]
      simp only [List.mem_append, List.mem_singleton]
      constructor
      · rintro ⟨a, b⟩; exact ⟨Or.inl a, b⟩
      · rintro ⟨a | a, b⟩
        · exact ⟨a, b⟩
        · subst a; exact absurd b hc
    · simp only [List.filter_append, List.length_append]
      simp [hc, hb]

theorem blocked_mark (g1 g2 : Guess) (s : CompareState) (b w : Int) (i j : Fin Npegs)
    (k : Fin Npegs × Fin Npegs) (h : Blocked g1 g2 s k) :
    Blocked g1 g2
      { blacks := b, whites := w, used1 := s.used1.set i true, used2 := s.used2.set j true }
      k := by
  unfold Blocked at *
  simp only [Mathlib.Vector.get_set_eq_if]
  rcases h with h | h | h
  · left; split <;> simp [h]
  · right; left; split <;> simp [h]
  · right; right; exact h

theorem whiteStep_inv (g1 g2 : Guess) (b K : Int) (i j : Fin Npegs) (s : CompareState)
    (h : WhiteInv g1 g2 b K s) : WhiteInv g1 g2 b K (whiteStep g1 g2 i s j) := by
  obtain ⟨hb, hw, hK, hd⟩ := h
  unfold whiteStep
  split
  · rename_i hc
    obtain ⟨_, h1, h2, he⟩ := hc
    have hm := card_unused_mark g1 g2 s.used1 s.used2 i j h1 h2 he
    refine ⟨hb, ?_, ?_, fun a => blocked_mark g1 g2 s _ _ i j (a, a) (hd a)⟩
    · simp only
      omega
    · simp only
      omega
  · exact ⟨hb, hw, hK, hd⟩

theorem whiteStep_blocks (g1 g2 : Guess) (b K : Int) (i j : Fin Npegs) (s : CompareState)
    (h : WhiteInv g1 g2 b K s) : Blocked g1 g2 (whiteStep g1 g2 i s j) (i, j) := by
  obtain ⟨_, _, _, hd⟩ := h
  unfold whiteStep
  split
  · left
    simp [Mathlib.Vector.get_set_same]
  · rename_i hc
    by_cases hij : i = j
    · subst hij; exact hd i
    · unfold Blocked
      by_contra hn
      push_neg at hn
      apply hc
      refine ⟨hij, ?_, ?_, hn.2.2⟩
      · simpa using hn.1
      · simpa using hn.2.1

theorem whiteStep_mono (g1 g2 : Guess) (i j : Fin Npegs) (s : CompareState)
    (k : Fin Npegs × Fin Npegs) (h : Blocked g1 g2 s k) :
    Blocked g1 g2 (whiteStep g1 g2 i s j) k := by
  unfold whiteStep
  split
  · exact blocked_mark g1 g2 s _ _ i j k h
  · exact h

theorem whiteRow_spec (g1 g2 : Guess) (b K : Int) (i : Fin Npegs) (s : CompareState)
    (h : WhiteInv g1 g2 b K s) :
    WhiteInv g1 g2 b K (whiteRow g1 g2 s i) ∧
      (∀ j, Blocked g1 g2 (whiteRow g1 g2 s i) (i, j)) ∧
        (∀ k, Blocked g1 g2 s k → Blocked g1 g2 (whiteRow g1 g2 s i) k) := by
  have key := foldl_blocking (whiteStep g1 g2 i) (WhiteInv g1 g2 b K) (Blocked g1 g2)
    (fun j k => k = (i, j))
    (fun s j hs => whiteStep_inv g1 g2 b K i j s hs)
    (fun s j k hs hk => by subst hk; exact whiteStep_blocks g1 g2 b K i j s hs)
    (fun s j k _ hk => whiteStep_mono g1 g2 i j s k hk)
    (List.finRange Npegs) s h
  exact ⟨key.1, fun j => key.2.1 j (List.mem_finRange j) (i, j) rfl, key.2.2⟩

theorem whitePass_spec (g1 g2 : Guess) (b K : Int) (s : CompareState)
    (h : WhiteInv g1 g2 b K s) :
    WhiteInv g1 g2 b K ((List.finRange Npegs).foldl (whiteRow g1 g2) s) ∧
      ∀ k, Blocked g1 g2 ((List.finRange Npegs).foldl (whiteRow g1 g2) s) k := by
  have key := foldl_blocking (whiteRow g1 g2) (WhiteInv g1 g2 b K) (Blocked g1 g2)
    (fun i k => k.1 = i)
    (fun s i hs => (whiteRow_spec g1 g2 b K i s hs).1)
    (fun s i k hs hk => by
      obtain ⟨a, c⟩ := k
      simp only at hk
      subst hk
      exact (whiteRow_spec g1 g2 b K a s hs).2.1 c)
    (fun s i k hs hk => (whiteRow_spec g1 g2 b K i s hs).2.2 k hk)
    (List.finRange Npegs) s h
  exact ⟨key.1, fun k => key.2.1 k.1 (List.mem_finRange k.1) k rfl⟩

theorem unusedColors_replicate (g : Guess) :
    unusedColors g (Mathlib.Vector.replicate Npegs false) = colorsOf g := by
  have hl : (List.finRange Npegs).map g.get = g.toList := by
    rw [← List.ofFn_eq_map, ← Mathlib.Vector.toList_ofFn, Mathlib.Vector.ofFn_get]
  unfold unusedColors colorsOf
  simp only [Mathlib.Vector.get_replicate, Finset.filter_True, Fin.univ_def, Multiset.map_coe, hl]

theorem blackPass_spec (g1 g2 : Guess) :
    BlackInv g1 g2 (Multiset.card (colorsOf g1 ∩ colorsOf g2)) (List.finRange Npegs)
      ((List.finRange Npegs).foldl (blackStep g1 g2)
        { blacks := 0, whites := 0, used1 := Mathlib.Vector.replicate Npegs false,
          used2 := Mathlib.Vector.replicate Npegs false }) := by
  apply foldl_prefix_inv (blackStep g1 g2) (BlackInv g1 g2 _)
    (fun done x s hx h => blackStep_inv g1 g2 _ done x s hx h) _ _ (List.nodup_finRange Npegs)
  refine ⟨rfl, ?_, fun _ => rfl, by simp, ?_⟩
  · intro i
    simp [Mathlib.Vector.get_replicate]
  · simp only [unusedColors_replicate]
    simp

theorem unused_disjoint (g1 g2 : Guess) (s : CompareState)
    (h : ∀ k, Blocked g1 g2 s k) :
    unusedColors g1 s.used1 ∩ unusedColors g2 s.used2 = 0 := by
  rw [Multiset.inter_eq_zero_iff_disjoint, Multiset.disjoint_left]
  intro c h1 h2
  unfold unusedColors at h1 h2
  obtain ⟨i, hi, rfl⟩ := Multiset.mem_map.mp h1
  obtain ⟨j, hj, hc⟩ := Multiset.mem_map.mp h2
  have hi1 : s.used1.get i = false := by simpa using hi
  have hj1 : s.used2.get j = false := by simpa using hj
  rcases h (i, j) with hb | hb | hb
  · simp [hi1] at hb
  · simp [hj1] at hb
  · exact hb hc.symm

/-- What the two passes of `Compare` compute. -/
theorem compareLoops_spec (g1 g2 : Guess) :
    (compareLoops g1 g2).blacks = (samePositions g1 g2 : Int) ∧
      0 ≤ (compareLoops g1 g2).whites ∧
      (compareLoops g1 g2).blacks + (compareLoops g1 g2).whites
        = (Multiset.card (colorsOf g1 ∩ colorsOf g2) : Int) := by
  obtain ⟨hw, hu, h21, hb, hK⟩ := blackPass_spec g1 g2
  have hW : WhiteInv g1 g2 (samePositions g1 g2 : Int)
      (Multiset.card (colorsOf g1 ∩ colorsOf g2))
      ((List.finRange Npegs).foldl (blackStep g1 g2)
        { blacks := 0, whites := 0, used1 := Mathlib.Vector.replicate Npegs false,
          used2 := Mathlib.Vector.replicate Npegs false }) := by
    refine ⟨hb, by rw [hw], by rw [hw]; simpa using hK, ?_⟩
    intro i
    unfold Blocked
    by_cases hc : g1.get i = g2.get i
    · left; exact (hu i).mpr ⟨List.mem_finRange i, hc⟩
    · right; right; exact hc
  obtain ⟨⟨fb, fw, fK, _⟩, fB⟩ := whitePass_spec g1 g2 _ _ _ hW
  have hz := unused_disjoint g1 g2 _ fB
  rw [hz] at fK
  exact ⟨fb, fw, by simpa using fK⟩

theorem card_common_eq_sum (g1 g2 : Guess) (S : Finset Color) :
    Multiset.card (colorsOf g1 ∩ colorsOf g2)
      = ∑ c in S ∪ g1.toList.toFinset, min (g1.toList.count c) (g2.toList.count c) := by
  rw [← Multiset.toFinset_sum_count_eq]
  have hsub : (colorsOf g1 ∩ colorsOf g2).toFinset ⊆ S ∪ g1.toList.toFinset := by
    intro c hc
    have : c ∈ colorsOf g1 := (Multiset.mem_inter.mp (Multiset.mem_toFinset.mp hc)).1
    exact Finset.mem_union_right _ (List.mem_toFinset.mpr (by simpa [colorsOf] using this))
  rw [Finset.sum_subset hsub]
  · apply Finset.sum_congr rfl
    intro c _
    simp [colorsOf, Multiset.count_inter]
  · intro c _ hc
    exact Multiset.count_eq_zero.mpr (fun hm => hc (Multiset.mem_toFinset.mpr hm))

theorem commonColors_eq (g1 g2 : Guess) :
    commonColors g1 g2 = Multiset.card (colorsOf g1 ∩ colorsOf g2) := by
  rw [card_common_eq_sum g1 g2 ∅, Finset.empty_union]
  unfold commonColors
  rw [← List.sum_toFinset _ (List.nodup_dedup _)]
  congr 1
  ext c
  simp

theorem Compare_eq_reference (g1 g2 : Guess) : Compare g1 g2 = referenceScore g1 g2 := by
  obtain ⟨hb, _, ht⟩ := compareLoops_spec g1 g2
  unfold Compare referenceScore
  simp only [Answer.mk.injEq]
  refine ⟨hb, ?_⟩
  rw [commonColors_eq]
  omega

/-- The counts of `Compare` are not negative and together at most `Npegs`. -/
theorem Compare_range (g1 g2 : Guess) :
    0 ≤ (Compare g1 g2).blacks ∧ 0 ≤ (Compare g1 g2).whites ∧
      (Compare g1 g2).blacks + (Compare g1 g2).whites ≤ (Npegs : Int) := by
  obtain ⟨hb, hw, ht⟩ := compareLoops_spec g1 g2
  have hle : Multiset.card (colorsOf g1 ∩ colorsOf g2) ≤ Npegs := by
    calc Multiset.card (colorsOf g1 ∩ colorsOf g2)
        ≤ Multiset.card (colorsOf g1) := Multiset.card_le_card (Multiset.inter_le_left _ _)
      _ = Npegs := by simp [colorsOf]
  have e1 : (Compare g1 g2).blacks = (compareLoops g1 g2).blacks := by simp only [Compare]
  have e2 : (Compare g1 g2).whites = (compareLoops g1 g2).whites := by simp only [Compare]
  rw [e1, e2]
  refine ⟨by rw [hb]; omega, hw, ?_⟩
  rw [ht]
  exact_mod_cast hle

theorem Compare_blacks (g1 g2 : Guess) :
    (Compare g1 g2).blacks = (samePositions g1 g2 : Int) := by
  rw [Compare_eq_reference]
  simp only [referenceScore]

/-- `Compare` reports `Npegs` blacks exactly for equal guesses. -/
theorem Compare_blacks_eq_iff (g1 g2 : Guess) :
    (Compare g1 g2).blacks = (Npegs : Int) ↔ g1 = g2 := by
  rw [Compare_blacks]
  have hlen : (List.finRange Npegs).length = Npegs := List.length_finRange Npegs
  constructor
  · intro h
    have h1 : ((List.finRange Npegs).filter (fun i => g1.get i = g2.get i)).length
        = (List.finRange Npegs).length := by
      rw [hlen]
      exact_mod_cast h
    have h2 := List.filter_length_eq_length.mp h1
    apply Mathlib.Vector.ext
    intro i
    simpa using h2 i (List.mem_finRange i)
  · rintro rfl
    have h1 : ((List.finRange Npegs).filter (fun i => g1.get i = g1.get i)).length
        = (List.finRange Npegs).length :=
      List.filter_length_eq_length.mpr (by simp)
    unfold samePositions
    rw [h1, hlen]

theorem AllBlacks_Compare (g1 g2 : Guess) : AllBlacks (Compare g1 g2) = true ↔ g1 = g2 := by
  unfold AllBlacks
  rw [decide_eq_true_iff]
  exact Compare_blacks_eq_iff g1 g2

theorem samePositions_eq_card (g1 g2 : Guess) :
    samePositions g1 g2
      = ((Finset.univ : Finset (Fin Npegs)).filter (fun i => g1.get i = g2.get i)).card := by
  unfold samePositions
  rw [Fin.univ_def]
  simp [Finset.card, Finset.filter]

/-! ## The constraint store -/

theorem AllowsAll_iff (facts : List Fact) (g : Guess) :
    AllowsAll facts g = true ↔ ∀ f ∈ facts, Allows f g = true := by
  induction facts with
  | nil => simp [AllowsAll]
  | cons f rest ih =>
    unfold AllowsAll
    cases hf : Allows f g <;> simp [hf, ih]

theorem Allows_mk (g : Guess) (a : Answer) (x : Guess) :
    Allows { guess := g, answer := a } x = true ↔ a = Compare g x := by
  unfold Allows
  exact decide_eq_true_iff

theorem Allows_self (g secret : Guess) :
    Allows { guess := g, answer := Compare g secret } secret = true := by
  simp [Allows]

section LoopFacts

variable {F : Type} [LinearOrderedField F]

theorem playBody_facts (log : F → F) (secret : Guess) (st st1 : PlayState)
    (h : playBody log (autoAsk secret) st = PlayNext.next st1) :
    st1.facts = st.facts ∨
      ∃ g, st1.facts = st.facts ++ [{ guess := g, answer := Compare g secret }] := by
  unfold playBody at h
  split at h
  · split at h
    · exact absurd h (by simp)
    · rename_i guess state n _
      split at h
      · exact absurd h (by simp)
      · simp only [autoAsk] at h
        split at h
        · exact absurd h (by simp)
        · split at h
          · injection h with h; subst h; exact Or.inl rfl
          · injection h with h; subst h; exact Or.inr ⟨guess, rfl⟩
  · exact absurd h (by simp)

theorem playIter_facts (log : F → F) (secret : Guess) (n : Nat) :
    ∀ f ∈ (playIter log (autoAsk secret) n).facts,
      ∃ g, f = { guess := g, answer := Compare g secret } := by
  induction n with
  | zero => intro f hf; simp [playIter, playInit] at hf
  | succ n ih =>
    intro f hf
    unfold playIter at hf
    split at hf
    · rename_i st hst
      rcases playBody_facts log secret _ _ hst with e | ⟨g, e⟩
      · rw [e] at hf; exact ih f hf
      · rw [e] at hf
        rcases List.mem_append.mp hf with hf | hf
        · exact ih f hf
        · exact ⟨g, by simpa using hf⟩
    · exact ih f hf

end LoopFacts

/-! ## The codeword space -/

theorem calculateAllGuessesInner_loop (fuel k : Nat) (prev : List Color)
    (ih : ∀ (result : List Guess) (c : Nat), ∃ out,
      calculateAllGuessesInner fuel result (prev ++ [(c : Color)]) = some out ∧
        out.map Mathlib.Vector.toList
          = result.map Mathlib.Vector.toList
            ++ (enumLists k).map (fun suf => (prev ++ [(c : Color)]) ++ suf))
    (cs : List Nat) (result : List Guess) :
    ∃ out,
      cs.foldlM (fun res (i : Nat) => calculateAllGuessesInner fuel res (prev ++ [(i : Color)]))
          result
        = some out ∧
      out.map Mathlib.Vector.toList
        = result.map Mathlib.Vector.toList
          ++ cs.flatMap (fun c => (enumLists k).map (fun suf => (prev ++ [(c : Color)]) ++ suf)) := by
  induction cs generalizing result with
  | nil => exact ⟨result, rfl, by simp⟩
  | cons c cs ihc =>
    obtain ⟨out1, h1, e1⟩ := ih result c
    obtain ⟨out2, h2, e2⟩ := ihc out1
    refine ⟨out2, ?_, ?_⟩
    · rw [List.foldlM_cons, h1]
      exact h2
    · rw [e2, e1]
      simp

theorem calculateAllGuessesInner_spec (k : Nat) :
    ∀ (fuel : Nat) (result : List Guess) (prev : List Color),
      prev.length + k = Npegs → k < fuel →
      ∃ out, calculateAllGuessesInner fuel result prev = some out ∧
        out.map Mathlib.Vector.toList
          = result.map Mathlib.Vector.toList ++ (enumLists k).map (fun suf => prev ++ suf) := by
  induction k with
  | zero =>
    intro fuel result prev hlen hfuel
    obtain ⟨f, rfl⟩ : ∃ f, fuel = f + 1 := ⟨fuel - 1, by omega⟩
    have hp : prev.length = Npegs := by omega
    refine ⟨result ++ [⟨prev, hp⟩], ?_, ?_⟩
    · unfold calculateAllGuessesInner
      rw [dif_pos hp]
    · simp [enumLists, Mathlib.Vector.toList]
  | succ k ih =>
    intro fuel result prev hlen hfuel
    obtain ⟨f, rfl⟩ : ∃ f, fuel = f + 1 := ⟨fuel - 1, by omega⟩
    have hp : ¬ prev.length = Npegs := by omega
    have hstep := calculateAllGuessesInner_loop f k prev
      (fun res c => ih f res (prev ++ [(c : Color)]) (by simp; omega) (by omega))
      (List.range Ncolors) result
    obtain ⟨out, h1, e1⟩ := hstep
    refine ⟨out, ?_, ?_⟩
    · unfold calculateAllGuessesInner
      rw [dif_neg hp]
      exact h1
    · rw [e1]
      simp only [enumLists, List.map_flatMap, List.map_map, List.append_assoc,
        List.singleton_append]
      rfl

/-- The codeword space, read as lists of colors. -/
theorem allGuesses_toList : allGuesses.map Mathlib.Vector.toList = enumLists Npegs := by
  obtain ⟨out, h, e⟩ := calculateAllGuessesInner_spec Npegs (Npegs + 1) [] [] (by simp) (by omega)
  unfold allGuesses calculateAllGuesses
  rw [h]
  simpa using e

theorem enumVec_toList (k : Nat) : (enumVec k).map Mathlib.Vector.toList = enumLists k := by
  induction k with
  | zero => rfl
  | succ k ih =>
    simp only [enumVec, enumLists, List.map_flatMap, List.map_map]
    rw [← ih]
    simp only [List.map_map]
    rfl

/-- The codeword space as an explicit enumeration. -/
theorem allGuesses_eq_enumVec : allGuesses = enumVec Npegs := by
  apply List.map_injective_iff.mpr Mathlib.Vector.toList_injective
  rw [allGuesses_toList, enumVec_toList]

theorem enumLists_length (k : Nat) : (enumLists k).length = Ncolors ^ k := by
  induction k with
  | zero => rfl
  | succ k ih =>
    simp only [enumLists, List.length_flatMap, List.length_map, ih, Function.comp_def,
      List.map_const', List.sum_replicate, List.length_range, smul_eq_mul, pow_succ]
    exact mul_comm _ _

theorem allGuesses_length : allGuesses.length = Ncolors ^ Npegs := by
  rw [← enumLists_length, ← allGuesses_toList, List.length_map]

theorem mem_enumLists (k : Nat) (l : List Color) :
    l ∈ enumLists k ↔ l.length = k ∧ ∀ c ∈ l, 0 ≤ c ∧ c < (Ncolors : Int) := by
  induction k generalizing l with
  | zero =>
    simp only [enumLists, List.mem_singleton, List.length_eq_zero]
    constructor
    · rintro rfl; simp
    · exact fun h => h.1
  | succ k ih =>
    simp only [enumLists, List.mem_flatMap, List.mem_range, List.mem_map]
    constructor
    · rintro ⟨c, hc, t, ht, rfl⟩
      obtain ⟨h1, h2⟩ := (ih t).mp ht
      refine ⟨by simp [h1], ?_⟩
      intro x hx
      rcases List.mem_cons.mp hx with rfl | hx
      · exact ⟨Int.natCast_nonneg c, by exact_mod_cast hc⟩
      · exact h2 x hx
    · rintro ⟨h1, h2⟩
      cases l with
      | nil => simp at h1
      | cons x t =>
        have hx := h2 x (List.mem_cons_self x t)
        have e : ((x.toNat : Nat) : Int) = x := Int.toNat_of_nonneg hx.1
        refine ⟨x.toNat, by have := hx.2; rw [← e] at this; exact_mod_cast this, t,
          (ih t).mpr ⟨by simpa using h1, ?_⟩, by rw [e]⟩
        intro y hy
        exact h2 y (List.mem_cons_of_mem x hy)

/-- A guess is a codeword exactly when each of its colors is one of the `Ncolors`
values `0 .. Ncolors - 1`. -/
theorem mem_allGuesses (g : Guess) :
    g ∈ allGuesses ↔ ∀ c ∈ g.toList, 0 ≤ c ∧ c < (Ncolors : Int) := by
  have h1 : g ∈ allGuesses ↔ g.toList ∈ allGuesses.map Mathlib.Vector.toList :=
    (List.mem_map_of_injective Mathlib.Vector.toList_injective).symm
  rw [h1, allGuesses_toList, mem_enumLists]
  simp

theorem enumLists_nodup (k : Nat) : (enumLists k).Nodup := by
  induction k with
  | zero => simp [enumLists]
  | succ k ih =>
    unfold enumLists
    rw [List.nodup_flatMap]
    refine ⟨?_, ?_⟩
    · intro c _
      exact ih.map (fun a b h => by simpa using h)
    · apply (List.nodup_range Ncolors).pairwise_of_forall_ne
      intro a _ b _ hab
      rw [Function.onFun, List.disjoint_left]
      intro l h1 h2
      obtain ⟨t1, _, rfl⟩ := List.mem_map.mp h1
      obtain ⟨t2, _, e⟩ := List.mem_map.mp h2
      injection e with e1 _
      exact hab (by exact_mod_cast e1.symm)

theorem allGuesses_nodup : allGuesses.Nodup := by
  apply List.Nodup.of_map Mathlib.Vector.toList
  rw [allGuesses_toList]
  exact enumLists_nodup Npegs

theorem zeros_mem_allGuesses : (⟨[0, 0, 0, 0], rfl⟩ : Guess) ∈ allGuesses := by
  rw [mem_allGuesses]
  intro c hc
  have hN : (Ncolors : Int) = 7 := rfl
  simp only [Mathlib.Vector.toList, List.mem_cons, List.mem_singleton, List.not_mem_nil,
    or_false, or_self] at hc
  subst hc
  rw [hN]
  exact ⟨by decide, by decide⟩

theorem ones_mem_allGuesses : (⟨[1, 1, 1, 1], rfl⟩ : Guess) ∈ allGuesses := by
  rw [mem_allGuesses]
  intro c hc
  have hN : (Ncolors : Int) = 7 := rfl
  simp only [Mathlib.Vector.toList, List.mem_cons, List.mem_singleton, List.not_mem_nil,
    or_false, or_self] at hc
  subst hc
  rw [hN]
  exact ⟨by decide, by decide⟩

theorem filter_eq_singleton {α : Type} (p : α → Bool) (l : List α) (a : α) (hnd : l.Nodup)
    (ha : a ∈ l) (hp : p a = true) (hu : ∀ x ∈ l, p x = true → x = a) :
    l.filter p = [a] := by
  induction l with
  | nil => simp at ha
  | cons x l ih =>
    obtain ⟨hx, hl⟩ := List.nodup_cons.mp hnd
    have hrest : ∀ y ∈ l, p y = true → y = a := fun y hy => hu y (List.mem_cons_of_mem x hy)
    rcases List.mem_cons.mp ha with rfl | ha
    · rw [List.filter_cons_of_pos hp]
      congr 1
      apply List.filter_eq_nil_iff.mpr
      intro y hy hpy
      exact hx (hrest y hy hpy ▸ hy)
    · have hpx : ¬ p x = true := by
        intro hpx
        have := hu x (List.mem_cons_self x l) hpx
        exact hx (this ▸ ha)
      rw [List.filter_cons_of_neg hpx]
      exact ih hl ha hrest

/-! ## The scoring pass -/

theorem Incr_Compare_isSome (fl : FrequencyList) (c sol : Guess) :
    ∃ fl1, Incr fl (Compare c sol) = some fl1 := by
  obtain ⟨hb, hw, ht⟩ := Compare_range c sol
  have hN : (Npegs : Int) = 4 := rfl
  have hS : (frequencyListSize : Int) = 25 := rfl
  have h : 0 ≤ Index (Compare c sol) ∧ Index (Compare c sol) < (frequencyListSize : Int) := by
    unfold Index
    rw [hN] at ht ⊢
    rw [hS]
    omega
  unfold Incr
  rw [dif_pos h]
  exact ⟨_, rfl⟩

/-- `Incr` raises the bucket at `Index answer` of its copy of the list by one. -/
theorem Incr_bucket (fl fl1 : FrequencyList) (answer : Answer) (h : Incr fl answer = some fl1) :
    fl1.toList.getD (Index answer).toNat 0 = fl.toList.getD (Index answer).toNat 0 + 1 := by
  unfold Incr at h
  split at h
  · rename_i hr
    injection h with h
    have hlt : (Index answer).toNat < fl.toList.length := by
      rw [Mathlib.Vector.toList_length]
      omega
    rw [← h]
    simp only [Mathlib.Vector.toList_set, Mathlib.Vector.get_eq_get]
    have hlt2 : (Index answer).toNat < frequencyListSize := by omega
    simp [List.getD_eq_getElem?_getD, List.getElem?_set, hlt, hlt2,
      List.getElem?_eq_getElem hlt]
  · exact absurd h (by simp)

/-- The frequency list of a scoring task is the all-zero list when its loop ends. -/
theorem scoreLoop_eq (c : Guess) (possibleSolutions : List Guess) :
    scoreLoop c possibleSolutions = some (Mathlib.Vector.replicate frequencyListSize 0) := by
  unfold scoreLoop
  generalize Mathlib.Vector.replicate frequencyListSize (0 : Int) = fl
  induction possibleSolutions with
  | nil => rfl
  | cons sol rest ih =>
    obtain ⟨fl1, h1⟩ := Incr_Compare_isSome fl c sol
    simp only [List.foldlM_cons, h1]
    exact ih

theorem mapM_some {α β : Type} (f : α → β) (l : List α) :
    l.mapM (fun a => some (f a)) = some (l.map f) := by
  rw [← List.mapM'_eq_mapM]
  induction l with
  | nil => rfl
  | cons a l ih => simp [List.mapM', ih]

section SelectorFacts

variable {F : Type} [LinearOrderedField F]

/-- Every codeword gets the score of the all-zero frequency list. -/
theorem scoreAll_eq (log : F → F) (possibleSolutions : List Guess) :
    scoreAll log possibleSolutions
      = some (allGuesses.map
          (fun _ => InfoValue log (Mathlib.Vector.replicate frequencyListSize 0))) := by
  unfold scoreAll
  simp only [scoreLoop_eq, Option.map_some']
  exact mapM_some _ _

theorem maxLoop_const (x : F) (l : List F) (h : ∀ v ∈ l, v = x) : maxLoop x l = x := by
  unfold maxLoop
  induction l with
  | nil => rfl
  | cons v l ih =>
    have hv : v = x := h v (List.mem_cons_self v l)
    subst hv
    simp only [List.foldl_cons, gt_iff_lt, lt_self_iff_false, if_false]
    exact ih (fun w hw => h w (List.mem_cons_of_mem _ hw))

theorem selectLoop_const (facts : List Fact) (x : F) (l : List Guess) (g : Guess)
    (rest : List Guess) (h : l.filter (AllowsAll facts) = g :: rest) (idx maxIdx : Nat) :
    selectLoop facts x (l.map (fun c => (c, x))) idx maxIdx = Sum.inl g := by
  induction l generalizing idx maxIdx with
  | nil => simp at h
  | cons a l ih =>
    simp only [List.map_cons, selectLoop, if_true]
    cases ha : AllowsAll facts a with
    | true =>
      rw [List.filter_cons_of_pos ha] at h
      injection h with h1 _
      simp [h1]
    | false =>
      rw [List.filter_cons_of_neg (by simp [ha])] at h
      simp only [Bool.false_eq_true, if_false]
      exact ih h _ _

theorem zip_map_const {α β : Type} (l : List α) (f : α → β) :
    l.zip (l.map f) = l.map (fun a => (a, f a)) := by
  induction l with
  | nil => rfl
  | cons a l ih => simp [ih]

/-- `MakeGuess` on the empty fact list. -/
theorem MakeGuess_nil (log : F → F) :
    MakeGuess log [] = some (fixedFirstGuess, Status.Notfound, (Ncolors : Int) ^ Npegs) := by
  simp [MakeGuess, firstGuess, randomFirstGuess]

/-- `MakeGuess` when no codeword satisfies the facts. -/
theorem MakeGuess_none_left (log : F → F) (facts : List Fact) (hf : facts ≠ [])
    (h : allGuesses.filter (AllowsAll facts) = []) :
    MakeGuess log facts = some (Mathlib.Vector.replicate Npegs 0, Status.Impossible, 0) := by
  have hl : ¬ facts.length = 0 := by simpa using hf
  unfold MakeGuess
  rw [if_neg hl]
  simp only []
  rw [h]

/-- `MakeGuess` when exactly one codeword satisfies the facts. -/
theorem MakeGuess_one_left (log : F → F) (facts : List Fact) (hf : facts ≠ []) (g : Guess)
    (h : allGuesses.filter (AllowsAll facts) = [g]) :
    MakeGuess log facts = some (g, Status.Found, 1) := by
  have hl : ¬ facts.length = 0 := by simpa using hf
  unfold MakeGuess
  rw [if_neg hl]
  simp only []
  rw [h]

/-- `MakeGuess` when at least two codewords satisfy the facts: the guess is the first
of them in the order of `allGuesses`. -/
theorem MakeGuess_many_left (log : F → F) (facts : List Fact) (hf : facts ≠ [])
    (g g1 : Guess) (rest : List Guess)
    (h : allGuesses.filter (AllowsAll facts) = g :: g1 :: rest) :
    MakeGuess log facts = some (g, Status.Notfound, ((rest.length + 2 : Nat) : Int)) := by
  have hl : ¬ facts.length = 0 := by simpa using hf
  have hne : allGuesses ≠ [] := by
    intro e
    rw [e] at h
    simp at h
  obtain ⟨a, as, ha⟩ := List.exists_cons_of_ne_nil hne
  have hsel := selectLoop_const facts
    (InfoValue log (Mathlib.Vector.replicate frequencyListSize 0)) allGuesses g (g1 :: rest) h 0 0
  unfold MakeGuess
  rw [if_neg hl]
  simp only []
  rw [h]
  simp only [scoreAll_eq]
  rw [zip_map_const]
  generalize hx : InfoValue log (Mathlib.Vector.replicate frequencyListSize 0) = x at hsel ⊢
  have hmax : maxLoop x (x :: List.map (fun _ => x) as) = x :=
    maxLoop_const x _ (by
      intro v hv
      rcases List.mem_cons.mp hv with e | hv
      · exact e
      · obtain ⟨_, _, e⟩ := List.mem_map.mp hv
        exact e.symm)
  rw [ha] at hsel ⊢
  simp only [List.map_cons] at hsel ⊢
  rw [hmax, hsel]
  simp
  omega

end SelectorFacts

/-! ## The entropy score -/

theorem InfoValue_fold {F : Type} [LinearOrderedField F] (log : F → F) (l : List Int) (r n : F) :
    l.foldl
        (fun (acc : F × F) (v : Int) =>
          let ntot := acc.2 + 1
          if v ≠ 0 ∧ v ≠ 1 then (acc.1 - (v : F) * log (v : F), ntot) else (acc.1, ntot))
        (r, n)
      = (r - (l.map (bucketTerm log)).sum, n + (l.length : F)) := by
  induction l generalizing r n with
  | nil => simp
  | cons v l ih =>
    simp only [List.foldl_cons, List.map_cons, List.sum_cons, List.length_cons]
    by_cases hv : v ≠ 0 ∧ v ≠ 1
    · rw [if_pos hv, ih]
      simp only [bucketTerm, if_pos hv]
      push_cast
      congr 1 <;> ring
    · rw [if_neg hv, ih]
      simp only [bucketTerm, if_neg hv]
      push_cast
      congr 1 <;> ring

/-- The value of `InfoValue`: its `ntot` is the number of buckets, 25, whatever the
counts in the buckets are. -/
theorem InfoValue_eq {F : Type} [LinearOrderedField F] (log : F → F) (fl : FrequencyList) :
    InfoValue log fl
      = ((0 - (fl.toList.map (bucketTerm log)).sum) / 25 + log 25) / log 2 := by
  unfold InfoValue
  rw [InfoValue_fold]
  have hlen : ((fl.toList.length : Nat) : F) = 25 := by
    rw [Mathlib.Vector.toList_length]
    norm_num [frequencyListSize, Npegs]
  simp only [hlen, zero_add]
  rw [if_pos (by norm_num)]

/-! ## Self-play -/

theorem AllowsAll_append (facts : List Fact) (f : Fact) (g : Guess) :
    AllowsAll (facts ++ [f]) g = (Allows f g && AllowsAll facts g) := by
  induction facts with
  | nil => cases h : Allows f g <;> simp [AllowsAll, h]
  | cons f0 rest ih =>
    simp only [List.cons_append, AllowsAll]
    cases h0 : Allows f0 g <;> simp [ih]

theorem SelfFacts_allows (secret : Guess) (facts : List Fact) (h : SelfFacts secret facts) :
    AllowsAll facts secret = true := by
  rw [AllowsAll_iff]
  intro f hf
  obtain ⟨g, rfl⟩ := h f hf
  exact Allows_self g secret

theorem SelfFacts_append (secret g : Guess) (facts : List Fact) (h : SelfFacts secret facts) :
    SelfFacts secret (facts ++ [{ guess := g, answer := Compare g secret }]) := by
  intro f hf
  rcases List.mem_append.mp hf with hf | hf
  · exact h f hf
  · exact ⟨g, by simpa using hf⟩

/-- Recording the answer to a wrong guess that was still possible removes that guess
from the possible secrets. -/
theorem possible_shrinks (secret g : Guess) (facts : List Fact)
    (hg : g ∈ allGuesses.filter (AllowsAll facts)) (hne : g ≠ secret) :
    (allGuesses.filter
        (AllowsAll (facts ++ [{ guess := g, answer := Compare g secret }]))).length
      < (allGuesses.filter (AllowsAll facts)).length := by
  have e : allGuesses.filter
        (AllowsAll (facts ++ [{ guess := g, answer := Compare g secret }]))
      = (allGuesses.filter (AllowsAll facts)).filter
          (Allows { guess := g, answer := Compare g secret }) := by
    have hfun : (fun x => Allows { guess := g, answer := Compare g secret } x
          && AllowsAll facts x)
        = AllowsAll (facts ++ [{ guess := g, answer := Compare g secret }]) :=
      funext (fun x => (AllowsAll_append facts _ x).symm)
    rw [List.filter_filter, hfun]
  rw [e, List.length_filter_lt_length_iff_exists]
  refine ⟨g, hg, ?_⟩
  intro h
  rw [Allows_mk] at h
  have h4 : (Compare g secret).blacks = (Npegs : Int) := by
    rw [h]
    exact (Compare_blacks_eq_iff g g).mpr rfl
  exact hne ((Compare_blacks_eq_iff g secret).mp h4)

theorem find_of_filter {α : Type} (p : α → Bool) (l : List α) (a : α) (rest : List α)
    (h : l.filter p = a :: rest) : l.find? p = some a := by
  induction l with
  | nil => simp at h
  | cons x l ih =>
    cases hx : p x with
    | true =>
      rw [List.filter_cons_of_pos hx] at h
      injection h with h1 _
      rw [List.find?_cons_of_pos _ hx, h1]
    | false =>
      rw [List.filter_cons_of_neg (by simp [hx])] at h
      rw [List.find?_cons_of_neg _ (by simp [hx])]
      exact ih h

theorem AllowsAll_eq_Ref (facts : List Fact) (g : Guess) :
    AllowsAll facts g = AllowsAllRef facts g := by
  induction facts with
  | nil => rfl
  | cons f rest ih =>
    unfold AllowsAll AllowsAllRef
    rw [List.all_cons, ih]
    unfold Allows AllowsAllRef
    rw [Compare_eq_reference]
    cases decide (f.answer = referenceScore f.guess g) <;> rfl

theorem nextGuessRef_eq (facts : List Fact) : nextGuessRef facts = nextGuess facts := by
  have hfun : AllowsAllRef facts = AllowsAll facts :=
    funext (fun g => (AllowsAll_eq_Ref facts g).symm)
  cases facts with
  | nil => rfl
  | cons f fs =>
    unfold nextGuessRef nextGuess
    rw [hfun, allGuesses_eq_enumVec]

theorem fixedFirstGuess_mem : fixedFirstGuess ∈ allGuesses := by
  rw [mem_allGuesses]
  intro c hc
  have hN : (Ncolors : Int) = 7 := rfl
  simp only [fixedFirstGuess, Yellow, Blue, Red, Black, Mathlib.Vector.toList, List.mem_cons,
    List.mem_singleton, List.not_mem_nil, or_false] at hc
  rw [hN]
  rcases hc with rfl | rfl | rfl | rfl <;> exact ⟨by decide, by decide⟩

section SelfPlay

variable {F : Type} [LinearOrderedField F]

/-- One pass of the loop of `Play` in self-play, given what `MakeGuess` returns. -/
theorem playBody_of_MakeGuess (log : F → F) (secret : Guess) (st : PlayState) (g : Guess)
    (state : Status) (n : Int) (hs : st.state = Status.Notfound)
    (hm : MakeGuess log st.facts = some (g, state, n)) (hi : state ≠ Status.Impossible) :
    playBody log (autoAsk secret) st
      = if AllBlacks (Compare g secret) then
          PlayNext.next
            { facts := st.facts, guess := g, state := Status.Found, counter := st.counter + 1 }
        else
          PlayNext.next
            { facts := st.facts ++ [{ guess := g, answer := Compare g secret }], guess := g,
              state := state, counter := st.counter + 1 } := by
  unfold playBody
  rw [if_pos hs, hm]
  simp only [if_neg hi, autoAsk, Bool.false_eq_true, if_false]

theorem playBody_ended (log : F → F) (ask : Guess → Answer × Bool) (st : PlayState)
    (hs : st.state ≠ Status.Notfound) :
    playBody log ask st = PlayNext.done (playReport st.guess st.state st.counter) := by
  unfold playBody
  rw [if_neg hs]

/-- One round of self-play: `Play` asks about the guess `nextGuess`, which is still
possible, and either this is the secret, or the answer is recorded and the
search goes on. -/
theorem playBody_selfplay (log : F → F) (secret : Guess) (hsec : secret ∈ allGuesses)
    (st : PlayState) (hs : st.state = Status.Notfound) (hf : SelfFacts secret st.facts) :
    ∃ g, nextGuess st.facts = some g ∧ g ∈ allGuesses.filter (AllowsAll st.facts) ∧
      ((g = secret ∧ playBody log (autoAsk secret) st
          = PlayNext.next
              { facts := st.facts, guess := secret, state := Status.Found,
                counter := st.counter + 1 }) ∨
       (g ≠ secret ∧ playBody log (autoAsk secret) st
          = PlayNext.next
              { facts := st.facts ++ [{ guess := g, answer := Compare g secret }], guess := g,
                state := Status.Notfound, counter := st.counter + 1 })) := by
  have hposs : secret ∈ allGuesses.filter (AllowsAll st.facts) :=
    List.mem_filter.mpr ⟨hsec, SelfFacts_allows secret st.facts hf⟩
  have key : ∀ (g : Guess) (state : Status) (n : Int),
      MakeGuess log st.facts = some (g, state, n) → state ≠ Status.Impossible →
      (g ≠ secret → state = Status.Notfound) →
      ((g = secret ∧ playBody log (autoAsk secret) st
          = PlayNext.next
              { facts := st.facts, guess := secret, state := Status.Found,
                counter := st.counter + 1 }) ∨
       (g ≠ secret ∧ playBody log (autoAsk secret) st
          = PlayNext.next
              { facts := st.facts ++ [{ guess := g, answer := Compare g secret }], guess := g,
                state := Status.Notfound, counter := st.counter + 1 })) := by
    intro g state n hm hi hst
    have hb := playBody_of_MakeGuess log secret st g state n hs hm hi
    by_cases hg : g = secret
    · left
      refine ⟨hg, ?_⟩
      rw [hb, if_pos ((AllBlacks_Compare g secret).mpr hg), hg]
    · right
      refine ⟨hg, ?_⟩
      have hnb : ¬ AllBlacks (Compare g secret) = true :=
        fun h => hg ((AllBlacks_Compare g secret).mp h)
      rw [hb, if_neg hnb, hst hg]
  by_cases hnil : st.facts = []
  · refine ⟨fixedFirstGuess, ?_, ?_, ?_⟩
    · rw [hnil]
      rfl
    · rw [hnil]
      exact List.mem_filter.mpr ⟨fixedFirstGuess_mem, rfl⟩
    · apply key fixedFirstGuess Status.Notfound ((Ncolors : Int) ^ Npegs)
      · rw [hnil]
        exact MakeGuess_nil log
      · decide
      · intro _; rfl
  · cases hP : allGuesses.filter (AllowsAll st.facts) with
    | nil =>
      rw [hP] at hposs
      simp at hposs
    | cons g rest =>
      have hnext : nextGuess st.facts = some g := by
        cases hfacts : st.facts with
        | nil => exact absurd hfacts hnil
        | cons f0 fs =>
          rw [hfacts] at hP
          exact find_of_filter _ _ g rest hP
      refine ⟨g, hnext, List.mem_cons_self g rest, ?_⟩
      cases rest with
      | nil =>
        have hg : secret = g := by
          rw [hP] at hposs
          simpa using hposs
        apply key g Status.Found 1 (MakeGuess_one_left log st.facts hnil g hP) (by decide)
        intro hne
        exact absurd hg.symm hne
      | cons g1 rest =>
        exact key g Status.Notfound _ (MakeGuess_many_left log st.facts hnil g g1 rest hP)
          (by decide) (fun _ => rfl)

/-- Self-play ends: from a state of the loop in which the search is on, `Play`
reports the secret after at most as many further rounds as there are possible
secrets. -/
theorem playLoop_selfplay (log : F → F) (secret : Guess) (hsec : secret ∈ allGuesses)
    (n : Nat) :
    ∀ st : PlayState, st.state = Status.Notfound → SelfFacts secret st.facts →
      (allGuesses.filter (AllowsAll st.facts)).length ≤ n →
      ∃ (fuel : Nat) (k : Int),
        st.counter < k ∧
        k ≤ st.counter + ((allGuesses.filter (AllowsAll st.facts)).length : Int) ∧
        ∀ fuel1, fuel ≤ fuel1 →
          playLoop log (autoAsk secret) fuel1 st = some (PlayResult.found secret k) := by
  induction n with
  | zero =>
    intro st _ hf hn
    have hposs : secret ∈ allGuesses.filter (AllowsAll st.facts) :=
      List.mem_filter.mpr ⟨hsec, SelfFacts_allows secret st.facts hf⟩
    have := List.length_pos_of_mem hposs
    omega
  | succ n ih =>
    intro st hs hf hn
    have hposs : secret ∈ allGuesses.filter (AllowsAll st.facts) :=
      List.mem_filter.mpr ⟨hsec, SelfFacts_allows secret st.facts hf⟩
    have hpos := List.length_pos_of_mem hposs
    obtain ⟨g, _, hg, hcase⟩ := playBody_selfplay log secret hsec st hs hf
    rcases hcase with ⟨_, hb⟩ | ⟨hne, hb⟩
    · refine ⟨2, st.counter + 1, by omega, by omega, ?_⟩
      intro fuel1 hfuel
      obtain ⟨f, rfl⟩ : ∃ f, fuel1 = f + 2 := ⟨fuel1 - 2, by omega⟩
      rw [playLoop, hb]
      simp only []
      rw [playLoop, playBody_ended log _ _ (by simp)]
      simp [playReport]
    · have hlt := possible_shrinks secret g st.facts hg hne
      obtain ⟨fuel, k, hk1, hk2, hrun⟩ := ih
        { facts := st.facts ++ [{ guess := g, answer := Compare g secret }], guess := g,
          state := Status.Notfound, counter := st.counter + 1 }
        rfl (SelfFacts_append secret g st.facts hf) (by simp only; omega)
      simp only at hk1 hk2
      refine ⟨fuel + 1, k, by omega, by omega, ?_⟩
      intro fuel1 hfuel
      obtain ⟨f, rfl⟩ : ∃ f, fuel1 = f + 1 := ⟨fuel1 - 1, by omega⟩
      rw [playLoop, hb]
      exact hrun f (by omega)

theorem PlayAutomatically_eq (log : F → F) (secret : Guess) (fuel : Nat) :
    PlayAutomatically log secret fuel
      = playLoop log (autoAsk secret) fuel
          { facts := [], guess := Mathlib.Vector.replicate Npegs 0, state := Status.Notfound,
            counter := 0 } := rfl

/-- The rounds computed by `selfPlayRounds` are the rounds of `Play` in self-play. -/
theorem selfPlayRounds_sound (log : F → F) (secret : Guess) (hsec : secret ∈ allGuesses)
    (fuel : Nat) :
    ∀ (facts : List Fact) (counter k : Int) (gprev : Guess), SelfFacts secret facts →
      selfPlayRounds secret fuel facts counter = some k →
      playLoop log (autoAsk secret) (fuel + 1)
          { facts := facts, guess := gprev, state := Status.Notfound, counter := counter }
        = some (PlayResult.found secret k) := by
  induction fuel with
  | zero =>
    intro facts counter k gprev _ h
    simp [selfPlayRounds] at h
  | succ fuel ih =>
    intro facts counter k gprev hf h
    obtain ⟨g, hnext, _, hcase⟩ := playBody_selfplay log secret hsec
      { facts := facts, guess := gprev, state := Status.Notfound, counter := counter } rfl hf
    simp only at hnext hcase
    unfold selfPlayRounds at h
    rw [nextGuessRef_eq, hnext] at h
    simp only at h
    rcases hcase with ⟨hg, hb⟩ | ⟨hg, hb⟩
    · rw [if_pos hg] at h
      injection h with h
      rw [playLoop, hb]
      simp only []
      rw [playLoop, playBody_ended log _ _ (by simp)]
      simp [playReport, h]
    · rw [if_neg hg, ← Compare_eq_reference] at h
      rw [playLoop, hb]
      exact ih _ _ _ _ (SelfFacts_append secret g facts hf) h

end SelfPlay

/-! ## The claims -/

/-- C1: `Compare` computes the reference Mastermind score.  For all guesses `g1`
and `g2`, `Compare g1 g2` is the reference score; its `blacks` is the number of
positions `i` with `g1[i] = g2[i]`; and `blacks + whites` is the sum, over any
finite set of colors that contains the colors of `g1`, of the smaller of the
numbers of occurrences of the color in `g1` and in `g2`.  Against the secret
`[2,3,4,0]`, the guess `[2,3,4,0]` scores `(4,0)`, the guess `[3,2,0,4]` scores
`(0,4)` and the guess `[1,1,1,1]` scores `(0,0)`. -/
theorem C1_Compare_is_reference_score :
    (∀ g1 g2 : Guess, Compare g1 g2 = referenceScore g1 g2) ∧
    (∀ g1 g2 : Guess, (Compare g1 g2).blacks
      = (((Finset.univ : Finset (Fin Npegs)).filter (fun i => g1.get i = g2.get i)).card : Int)) ∧
    (∀ (g1 g2 : Guess) (S : Finset Color),
      (Compare g1 g2).blacks + (Compare g1 g2).whites
        = ((∑ c in S ∪ g1.toList.toFinset,
            min (g1.toList.count c) (g2.toList.count c) : Nat) : Int)) ∧
    Compare ⟨[2, 3, 4, 0], rfl⟩ ⟨[2, 3, 4, 0], rfl⟩ = { blacks := 4, whites := 0 } ∧
    Compare ⟨[3, 2, 0, 4], rfl⟩ ⟨[2, 3, 4, 0], rfl⟩ = { blacks := 0, whites := 4 } ∧
    Compare ⟨[1, 1, 1, 1], rfl⟩ ⟨[2, 3, 4, 0], rfl⟩ = { blacks := 0, whites := 0 } := by
  refine ⟨Compare_eq_reference, ?_, ?_, by decide, by decide, by decide⟩
  · intro g1 g2
    rw [Compare_eq_reference, ← samePositions_eq_card]
    simp only [referenceScore]
  · intro g1 g2 S
    rw [Compare_eq_reference, ← card_common_eq_sum g1 g2 S, ← commonColors_eq]
    simp only [referenceScore]
    omega

/-- C2: the fact built from the secret's own feedback never excludes the secret:
`Allows (Fact g (Compare g secret)) secret` is true for every guess `g` and every
secret; so the secret satisfies `AllowsAll` for any list of such facts, and in
self-play it satisfies `AllowsAll` for the facts that `Play` has accumulated
after any number of rounds. -/
theorem C2_secret_never_excluded {F : Type} [LinearOrderedField F] (log : F → F) :
    (∀ g secret : Guess,
      Allows { guess := g, answer := Compare g secret } secret = true) ∧
    (∀ (gs : List Guess) (secret : Guess),
      AllowsAll (gs.map (fun g => { guess := g, answer := Compare g secret })) secret = true) ∧
    (∀ (secret : Guess) (n : Nat),
      AllowsAll (playIter log (autoAsk secret) n).facts secret = true) := by
  refine ⟨Allows_self, ?_, ?_⟩
  · intro gs secret
    rw [AllowsAll_iff]
    intro f hf
    obtain ⟨g, _, rfl⟩ := List.mem_map.mp hf
    exact Allows_self g secret
  · intro secret n
    rw [AllowsAll_iff]
    intro f hf
    obtain ⟨g, rfl⟩ := playIter_facts log secret n f hf
    exact Allows_self g secret

/-- C6 (the code does not do this): the scoring pass of `MakeGuess` leaves the
frequency list of every candidate all zero, because `Incr` increments a copy.
So for every candidate `c` and all possible secrets the list after the loop is
the all-zero list, every bucket reads 0 and the buckets sum to 0, while the
number of possible secrets `s` with `Compare c s = r` is at least 1 for the
answer `r` of the first possible secret.  `Incr` itself does raise the bucket
at `Index answer` of its copy by one. -/
theorem C6_scoring_pass_leaves_zero_list :
    (∀ (c : Guess) (possibleSolutions : List Guess),
      scoreLoop c possibleSolutions = some (Mathlib.Vector.replicate frequencyListSize 0)) ∧
    (∀ (c : Guess) (possibleSolutions : List Guess) (i : Fin frequencyListSize),
      (scoreLoop c possibleSolutions).map (fun fl => fl.get i) = some 0) ∧
    (∀ (c : Guess) (possibleSolutions : List Guess),
      (scoreLoop c possibleSolutions).map (fun fl => fl.toList.sum) = some 0) ∧
    (∀ (c sol : Guess) (rest : List Guess),
      1 ≤ frequencyCount c (sol :: rest) (Compare c sol)) ∧
    (∀ (fl : FrequencyList) (c sol : Guess),
      (Incr fl (Compare c sol)).map (fun fl1 => fl1.toList.getD (Index (Compare c sol)).toNat 0)
        = some (fl.toList.getD (Index (Compare c sol)).toNat 0 + 1)) := by
  refine ⟨scoreLoop_eq, ?_, ?_, ?_, ?_⟩
  · intro c ps i
    rw [scoreLoop_eq]
    simp [Mathlib.Vector.get_replicate]
  · intro c ps
    rw [scoreLoop_eq]
    simp [Mathlib.Vector.replicate]
  · intro c sol rest
    simp [frequencyCount, List.filter_cons]
  · intro fl c sol
    obtain ⟨fl1, h1⟩ := Incr_Compare_isSome fl c sol
    rw [h1]
    exact congrArg some (Incr_bucket fl fl1 _ h1)

/-- C7 (the code does not do this): with `math.Log` read as the real natural
logarithm, `InfoValue` divides by the number of buckets, 25, and not by the sum
`N` of the counts: for every list it is `(-(Σ count * ln count) / 25 + ln 25) / ln 2`.
On the all-zero list (`N = 0`, entropy 0 by definition) it is `ln 25 / ln 2`,
not 0; on the list with one bucket of count 2 (`N = 2`, Shannon entropy 0) it
is `(-(2 * ln 2) / 25 + ln 25) / ln 2`, which is positive. -/
theorem C7_InfoValue_divides_by_bucket_count :
    (∀ fl : FrequencyList,
      InfoValue Real.log fl
        = ((0 - (fl.toList.map (bucketTerm Real.log)).sum) / 25 + Real.log 25) / Real.log 2) ∧
    InfoValue Real.log (Mathlib.Vector.replicate frequencyListSize 0)
      = Real.log 25 / Real.log 2 ∧
    InfoValue Real.log (Mathlib.Vector.replicate frequencyListSize 0) ≠ 0 ∧
    InfoValue Real.log
        ((Mathlib.Vector.replicate frequencyListSize 0).set ⟨0, by decide⟩ 2)
      = ((0 - 2 * Real.log 2) / 25 + Real.log 25) / Real.log 2 ∧
    0 < InfoValue Real.log
        ((Mathlib.Vector.replicate frequencyListSize 0).set ⟨0, by decide⟩ 2) ∧
    shannonEntropy Real.log (Mathlib.Vector.replicate frequencyListSize 0) = 0 ∧
    shannonEntropy Real.log
        ((Mathlib.Vector.replicate frequencyListSize 0).set ⟨0, by decide⟩ 2) = 0 := by
  have h2 : 0 < Real.log 2 := Real.log_pos (by norm_num)
  have h25 : Real.log 2 ≤ Real.log 25 := Real.log_le_log (by norm_num) (by norm_num)
  have e0 : InfoValue Real.log (Mathlib.Vector.replicate frequencyListSize 0)
      = Real.log 25 / Real.log 2 := by
    rw [InfoValue_eq]
    simp [Mathlib.Vector.replicate, bucketTerm]
  have e2 : InfoValue Real.log
        ((Mathlib.Vector.replicate frequencyListSize 0).set ⟨0, by decide⟩ 2)
      = ((0 - 2 * Real.log 2) / 25 + Real.log 25) / Real.log 2 := by
    rw [InfoValue_eq]
    simp [Mathlib.Vector.replicate, Mathlib.Vector.set, Mathlib.Vector.toList, bucketTerm,
      frequencyListSize, Npegs, List.replicate]
  refine ⟨fun fl => InfoValue_eq Real.log fl, e0, ?_, e2, ?_, ?_, ?_⟩
  · rw [e0]
    exact ne_of_gt (div_pos (lt_of_lt_of_le h2 h25) h2)
  · rw [e2]
    apply div_pos _ h2
    linarith
  · simp [shannonEntropy, Mathlib.Vector.replicate]
  · have hne : Real.log 2 ≠ 0 := ne_of_gt h2
    simp [shannonEntropy, Mathlib.Vector.replicate, Mathlib.Vector.set, Mathlib.Vector.toList,
      frequencyListSize, Npegs, List.replicate]

/-- C8: when exactly one codeword `g` of the codeword space satisfies `AllowsAll`
for the facts, `MakeGuess` returns `g` with status `Found` and remaining count 1. -/
theorem C8_unique_solution_is_found {F : Type} [LinearOrderedField F] (log : F → F)
    (facts : List Fact) (g : Guess) (hg : g ∈ allGuesses) (ha : AllowsAll facts g = true)
    (hu : ∀ g1 ∈ allGuesses, AllowsAll facts g1 = true → g1 = g) :
    MakeGuess log facts = some (g, Status.Found, 1) := by
  have hf : facts ≠ [] := by
    rintro rfl
    have e0 := hu _ zeros_mem_allGuesses rfl
    have e1 := hu _ ones_mem_allGuesses rfl
    exact absurd (e0.trans e1.symm) (by decide)
  exact MakeGuess_one_left log facts hf g
    (filter_eq_singleton _ _ g allGuesses_nodup hg ha hu)

/-- C8 at the facts `[([0,0,0,0], (4,0))]`, which only `[0,0,0,0]` satisfies. -/
theorem C8_unique_solution_is_found_witness :
    ((⟨[0, 0, 0, 0], rfl⟩ : Guess) ∈ allGuesses ∧
      AllowsAll [{ guess := ⟨[0, 0, 0, 0], rfl⟩, answer := { blacks := 4, whites := 0 } }]
        ⟨[0, 0, 0, 0], rfl⟩ = true ∧
      ∀ g1 ∈ allGuesses,
        AllowsAll [{ guess := ⟨[0, 0, 0, 0], rfl⟩, answer := { blacks := 4, whites := 0 } }] g1
          = true → g1 = ⟨[0, 0, 0, 0], rfl⟩) ∧
    MakeGuess (fun x : ℚ => x)
        [{ guess := ⟨[0, 0, 0, 0], rfl⟩, answer := { blacks := 4, whites := 0 } }]
      = some (⟨[0, 0, 0, 0], rfl⟩, Status.Found, 1) := by
  have hu : ∀ g1 ∈ allGuesses,
      AllowsAll [{ guess := ⟨[0, 0, 0, 0], rfl⟩, answer := { blacks := 4, whites := 0 } }] g1
        = true → g1 = ⟨[0, 0, 0, 0], rfl⟩ := by
    intro g1 _ h
    have h1 := (AllowsAll_iff _ _).mp h _ (List.mem_singleton_self _)
    simp only [Allows, decide_eq_true_eq] at h1
    have h2 : (Compare ⟨[0, 0, 0, 0], rfl⟩ g1).blacks = (Npegs : Int) := by
      rw [← h1]
      rfl
    exact ((Compare_blacks_eq_iff _ _).mp h2).symm
  exact ⟨⟨zeros_mem_allGuesses, by decide, hu⟩,
    C8_unique_solution_is_found (fun x : ℚ => x) _ _ zeros_mem_allGuesses (by decide) hu⟩

/-- C9: when no codeword of the codeword space satisfies `AllowsAll` for the facts,
`MakeGuess` does not fail and returns the all-`Empty` guess with status
`Impossible` and remaining count 0. -/
theorem C9_contradictory_facts_are_impossible {F : Type} [LinearOrderedField F]
    (log : F → F) (facts : List Fact)
    (h : ∀ g ∈ allGuesses, AllowsAll facts g = false) :
    MakeGuess log facts
      = some (Mathlib.Vector.replicate Npegs Empty, Status.Impossible, 0) := by
  have hf : facts ≠ [] := by
    rintro rfl
    exact absurd (h _ zeros_mem_allGuesses) (by simp [AllowsAll])
  exact MakeGuess_none_left log facts hf
    (List.filter_eq_nil_iff.mpr (fun g hg => by simp [h g hg]))

/-- C9 at the facts `[([0,0,0,0], (4,0)), ([0,0,0,0], (0,0))]`, which contradict
each other. -/
theorem C9_contradictory_facts_are_impossible_witness :
    (∀ g ∈ allGuesses,
      AllowsAll
        [{ guess := ⟨[0, 0, 0, 0], rfl⟩, answer := { blacks := 4, whites := 0 } },
         { guess := ⟨[0, 0, 0, 0], rfl⟩, answer := { blacks := 0, whites := 0 } }] g = false) ∧
    MakeGuess (fun x : ℚ => x)
        [{ guess := ⟨[0, 0, 0, 0], rfl⟩, answer := { blacks := 4, whites := 0 } },
         { guess := ⟨[0, 0, 0, 0], rfl⟩, answer := { blacks := 0, whites := 0 } }]
      = some (Mathlib.Vector.replicate Npegs Empty, Status.Impossible, 0) := by
  have hno : ∀ g ∈ allGuesses,
      AllowsAll
        [{ guess := ⟨[0, 0, 0, 0], rfl⟩, answer := { blacks := 4, whites := 0 } },
         { guess := ⟨[0, 0, 0, 0], rfl⟩, answer := { blacks := 0, whites := 0 } }] g = false := by
    intro g _
    cases hc : AllowsAll
        [{ guess := ⟨[0, 0, 0, 0], rfl⟩, answer := { blacks := 4, whites := 0 } },
         { guess := ⟨[0, 0, 0, 0], rfl⟩, answer := { blacks := 0, whites := 0 } }] g with
    | false => rfl
    | true =>
      have h1 := (AllowsAll_iff _ _).mp hc _ (List.mem_cons_self _ _)
      have h2 := (AllowsAll_iff _ _).mp hc _
        (List.mem_cons_of_mem _ (List.mem_singleton_self _))
      simp only [Allows, decide_eq_true_eq] at h1 h2
      exact absurd (h1.trans h2.symm) (by decide)
  exact ⟨hno, C9_contradictory_facts_are_impossible (fun x : ℚ => x) _ hno⟩

/-- C10: for the empty fact list `MakeGuess` returns the fixed opening guess
`{Yellow, Blue, Red, Black}` with status `Notfound` and a remaining count equal
to the size of the codeword space, `len(allGuesses) = Ncolors ^ Npegs = 2401`. -/
theorem C10_opening_guess {F : Type} [LinearOrderedField F] (log : F → F) :
    MakeGuess log []
        = some (⟨[Yellow, Blue, Red, Black], rfl⟩, Status.Notfound, (allGuesses.length : Int)) ∧
      allGuesses.length = Ncolors ^ Npegs ∧ Ncolors ^ Npegs = 2401 := by
  refine ⟨?_, allGuesses_length, rfl⟩
  rw [MakeGuess_nil, allGuesses_length]
  simp [fixedFirstGuess]

/-- C3: for every secret in the codeword space, `Play` driven by the oracle of
`PlayAutomatically` terminates (every sufficient amount of fuel gives the same
result), ends in status `Found`, and the guess it reports is the secret; the
step counter it reports is at least 1 and at most the size of the codeword
space. -/
theorem C3_selfplay_finds_secret {F : Type} [LinearOrderedField F] (log : F → F)
    (secret : Guess) (hsec : secret ∈ allGuesses) :
    ∃ (fuel : Nat) (counter : Int),
      1 ≤ counter ∧ counter ≤ (allGuesses.length : Int) ∧
      ∀ fuel1, fuel ≤ fuel1 →
        PlayAutomatically log secret fuel1 = some (PlayResult.found secret counter) := by
  obtain ⟨fuel, k, h1, h2, hrun⟩ := playLoop_selfplay log secret hsec allGuesses.length
    playInit rfl (by intro f hf; simp [playInit] at hf)
    (List.length_filter_le _ _)
  refine ⟨fuel, k, ?_, ?_, hrun⟩
  · simp only [playInit] at h1
    omega
  · have := List.length_filter_le (AllowsAll playInit.facts) allGuesses
    simp only [playInit] at h2 this ⊢
    omega

/-- C3 at the secret of `main`, `Guess{Red, White, Green, Empty}`. -/
theorem C3_selfplay_finds_secret_witness :
    (⟨[Red, White, Green, Empty], rfl⟩ : Guess) ∈ allGuesses ∧
    ∃ (fuel : Nat) (counter : Int),
      1 ≤ counter ∧ counter ≤ (allGuesses.length : Int) ∧
      ∀ fuel1, fuel ≤ fuel1 →
        PlayAutomatically (fun x : ℚ => x) ⟨[Red, White, Green, Empty], rfl⟩ fuel1
          = some (PlayResult.found ⟨[Red, White, Green, Empty], rfl⟩ counter) := by
  have hmem : (⟨[Red, White, Green, Empty], rfl⟩ : Guess) ∈ allGuesses := by
    rw [mem_allGuesses]
    intro c hc
    have hN : (Ncolors : Int) = 7 := rfl
    simp only [Red, White, Green, Empty, Mathlib.Vector.toList, List.mem_cons,
      List.mem_singleton, List.not_mem_nil, or_false] at hc
    rw [hN]
    rcases hc with rfl | rfl | rfl | rfl <;> exact ⟨by decide, by decide⟩
  exact ⟨hmem, C3_selfplay_finds_secret (fun x : ℚ => x) _ hmem⟩

set_option maxRecDepth 100000 in
/-- C4 (the code does not do this): self-play does not always reach `Found` within
6 rounds.  For the secret `Guess{Empty, Red, Green, Black}`, which is in the
codeword space, `Play` reports the secret with the step counter 7.  For the
secret of `main`, `Guess{Red, White, Green, Empty}`, it reports the step
counter 5. -/
theorem C4_selfplay_takes_seven_rounds {F : Type} [LinearOrderedField F] (log : F → F) :
    (⟨[Empty, Red, Green, Black], rfl⟩ : Guess) ∈ allGuesses ∧
    PlayAutomatically log ⟨[Empty, Red, Green, Black], rfl⟩ 8
      = some (PlayResult.found ⟨[Empty, Red, Green, Black], rfl⟩ 7) ∧
    ¬ ((7 : Int) ≤ 6) ∧
    PlayAutomatically log ⟨[Red, White, Green, Empty], rfl⟩ 6
      = some (PlayResult.found ⟨[Red, White, Green, Empty], rfl⟩ 5) := by
  have hm1 : (⟨[Empty, Red, Green, Black], rfl⟩ : Guess) ∈ allGuesses :=
    (mem_allGuesses _).mpr (by decide)
  have hm2 : (⟨[Red, White, Green, Empty], rfl⟩ : Guess) ∈ allGuesses :=
    (mem_allGuesses _).mpr (by decide)
  have hnil : ∀ secret : Guess, SelfFacts secret [] := fun _ f hf => by simp at hf
  have r1 : selfPlayRounds ⟨[Empty, Red, Green, Black], rfl⟩ 7 [] 0 = some 7 := by decide!
  have r2 : selfPlayRounds ⟨[Red, White, Green, Empty], rfl⟩ 5 [] 0 = some 5 := by decide!
  have p1 := selfPlayRounds_sound log _ hm1 7 [] 0 7 (Mathlib.Vector.replicate Npegs 0)
    (hnil _) r1
  have p2 := selfPlayRounds_sound log _ hm2 5 [] 0 5 (Mathlib.Vector.replicate Npegs 0)
    (hnil _) r2
  refine ⟨hm1, ?_, by decide, ?_⟩
  · rw [PlayAutomatically_eq]
    exact p1
  · rw [PlayAutomatically_eq]
    exact p2

set_option maxRecDepth 100000 in
/-- The possible secrets after the facts `([6,1,2,3], (1,0))` and `([0,0,0,3], (2,1))`. -/
theorem possible_after_two_facts :
    allGuesses.filter (AllowsAll
        [{ guess := ⟨[6, 1, 2, 3], rfl⟩, answer := { blacks := 1, whites := 0 } },
         { guess := ⟨[0, 0, 0, 3], rfl⟩, answer := { blacks := 2, whites := 1 } }])
      = [⟨[0, 0, 2, 0], rfl⟩, ⟨[0, 1, 0, 0], rfl⟩, ⟨[6, 0, 0, 0], rfl⟩] := by
  have hfun : AllowsAll
        [{ guess := ⟨[6, 1, 2, 3], rfl⟩, answer := { blacks := 1, whites := 0 } },
         { guess := ⟨[0, 0, 0, 3], rfl⟩, answer := { blacks := 2, whites := 1 } }]
      = AllowsAllRef
        [{ guess := ⟨[6, 1, 2, 3], rfl⟩, answer := { blacks := 1, whites := 0 } },
         { guess := ⟨[0, 0, 0, 3], rfl⟩, answer := { blacks := 2, whites := 1 } }] :=
    funext (fun g => AllowsAll_eq_Ref _ g)
  rw [allGuesses_eq_enumVec, hfun]
  decide!

set_option maxRecDepth 100000 in
/-- C5 (the code does not do this): the guess that `MakeGuess` returns need not have
a maximal entropy score.  After the facts `([6,1,2,3], (1,0))` and
`([0,0,0,3], (2,1))` the possible secrets are `[0,0,2,0]`, `[0,1,0,0]` and
`[6,0,0,0]`, and `MakeGuess` returns `[0,0,2,0]` with status `Notfound` and
remaining count 3.  The frequency list of `[0,0,2,0]` against the possible secrets
(one secret answers `(4,0)`, two answer `(2,1)`) has the buckets 1 and 2, that of
the codeword `[0,0,1,0]` (answers `(3,0)`, `(2,2)`, `(2,1)`) has the buckets 1,
1 and 1, and `InfoValue` (with the real logarithm) of the first is smaller than
`InfoValue` of the second. -/
theorem C5_returned_guess_not_most_informative :
    allGuesses.filter (AllowsAll
        [{ guess := ⟨[6, 1, 2, 3], rfl⟩, answer := { blacks := 1, whites := 0 } },
         { guess := ⟨[0, 0, 0, 3], rfl⟩, answer := { blacks := 2, whites := 1 } }])
      = [⟨[0, 0, 2, 0], rfl⟩, ⟨[0, 1, 0, 0], rfl⟩, ⟨[6, 0, 0, 0], rfl⟩] ∧
    MakeGuess Real.log
        [{ guess := ⟨[6, 1, 2, 3], rfl⟩, answer := { blacks := 1, whites := 0 } },
         { guess := ⟨[0, 0, 0, 3], rfl⟩, answer := { blacks := 2, whites := 1 } }]
      = some (⟨[0, 0, 2, 0], rfl⟩, Status.Notfound, 3) ∧
    (⟨[0, 0, 1, 0], rfl⟩ : Guess) ∈ allGuesses ∧
    countedFrequencyList ⟨[0, 0, 2, 0], rfl⟩
        [⟨[0, 0, 2, 0], rfl⟩, ⟨[0, 1, 0, 0], rfl⟩, ⟨[6, 0, 0, 0], rfl⟩]
      = ⟨[0, 0, 0, 0, 0, 0, 0, 0, 0, 0, 0, 2, 0, 0, 0, 0, 0, 0, 0, 0, 1, 0, 0, 0, 0], rfl⟩ ∧
    countedFrequencyList ⟨[0, 0, 1, 0], rfl⟩
        [⟨[0, 0, 2, 0], rfl⟩, ⟨[0, 1, 0, 0], rfl⟩, ⟨[6, 0, 0, 0], rfl⟩]
      = ⟨[0, 0, 0, 0, 0, 0, 0, 0, 0, 0, 0, 1, 1, 0, 0, 1, 0, 0, 0, 0, 0, 0, 0, 0, 0], rfl⟩ ∧
    (frequencyCount ⟨[0, 0, 2, 0], rfl⟩
        [⟨[0, 0, 2, 0], rfl⟩, ⟨[0, 1, 0, 0], rfl⟩, ⟨[6, 0, 0, 0], rfl⟩] { blacks := 4, whites := 0 } = 1 ∧
      frequencyCount ⟨[0, 0, 2, 0], rfl⟩
        [⟨[0, 0, 2, 0], rfl⟩, ⟨[0, 1, 0, 0], rfl⟩, ⟨[6, 0, 0, 0], rfl⟩] { blacks := 2, whites := 1 } = 2 ∧
      frequencyCount ⟨[0, 0, 1, 0], rfl⟩
        [⟨[0, 0, 2, 0], rfl⟩, ⟨[0, 1, 0, 0], rfl⟩, ⟨[6, 0, 0, 0], rfl⟩] { blacks := 3, whites := 0 } = 1 ∧
      frequencyCount ⟨[0, 0, 1, 0], rfl⟩
        [⟨[0, 0, 2, 0], rfl⟩, ⟨[0, 1, 0, 0], rfl⟩, ⟨[6, 0, 0, 0], rfl⟩] { blacks := 2, whites := 2 } = 1 ∧
      frequencyCount ⟨[0, 0, 1, 0], rfl⟩
        [⟨[0, 0, 2, 0], rfl⟩, ⟨[0, 1, 0, 0], rfl⟩, ⟨[6, 0, 0, 0], rfl⟩] { blacks := 2, whites := 1 } = 1) ∧
    InfoValue Real.log (countedFrequencyList ⟨[0, 0, 2, 0], rfl⟩
        [⟨[0, 0, 2, 0], rfl⟩, ⟨[0, 1, 0, 0], rfl⟩, ⟨[6, 0, 0, 0], rfl⟩])
      < InfoValue Real.log (countedFrequencyList ⟨[0, 0, 1, 0], rfl⟩
        [⟨[0, 0, 2, 0], rfl⟩, ⟨[0, 1, 0, 0], rfl⟩, ⟨[6, 0, 0, 0], rfl⟩]) := by
  have hP : allGuesses.filter (AllowsAll
        [{ guess := ⟨[6, 1, 2, 3], rfl⟩, answer := { blacks := 1, whites := 0 } },
         { guess := ⟨[0, 0, 0, 3], rfl⟩, answer := { blacks := 2, whites := 1 } }])
      = [⟨[0, 0, 2, 0], rfl⟩, ⟨[0, 1, 0, 0], rfl⟩, ⟨[6, 0, 0, 0], rfl⟩] := possible_after_two_facts
  have hg : countedFrequencyList ⟨[0, 0, 2, 0], rfl⟩
        [⟨[0, 0, 2, 0], rfl⟩, ⟨[0, 1, 0, 0], rfl⟩, ⟨[6, 0, 0, 0], rfl⟩]
      = ⟨[0, 0, 0, 0, 0, 0, 0, 0, 0, 0, 0, 2, 0, 0, 0, 0, 0, 0, 0, 0, 1, 0, 0, 0, 0], rfl⟩ := by
    decide!
  have hc : countedFrequencyList ⟨[0, 0, 1, 0], rfl⟩
        [⟨[0, 0, 2, 0], rfl⟩, ⟨[0, 1, 0, 0], rfl⟩, ⟨[6, 0, 0, 0], rfl⟩]
      = ⟨[0, 0, 0, 0, 0, 0, 0, 0, 0, 0, 0, 1, 1, 0, 0, 1, 0, 0, 0, 0, 0, 0, 0, 0, 0], rfl⟩ := by
    decide!
  have h2 : 0 < Real.log 2 := Real.log_pos (by norm_num)
  refine ⟨hP, ?_, (mem_allGuesses _).mpr (by decide), hg, hc,
    ⟨by decide!, by decide!, by decide!, by decide!, by decide!⟩, ?_⟩
  · have hm := MakeGuess_many_left Real.log _ (by simp) _ _ _ hP
    simpa using hm
  · have b0 : bucketTerm Real.log 0 = 0 := by simp [bucketTerm]
    have b1 : bucketTerm Real.log 1 = 0 := by simp [bucketTerm]
    have b2 : bucketTerm Real.log 2 = 2 * Real.log 2 := by simp [bucketTerm]
    rw [hg, hc, InfoValue_eq, InfoValue_eq]
    simp only [Mathlib.Vector.toList, List.map_cons, List.map_nil, List.sum_cons, List.sum_nil,
      b0, b1, b2]
    apply div_lt_div_of_pos_right _ h2
    linarith

/-! ## Further properties of the comparator -/

theorem samePositions_comm (g1 g2 : Guess) : samePositions g1 g2 = samePositions g2 g1 := by
  unfold samePositions
  have hfun : (fun i : Fin Npegs => decide (g1.get i = g2.get i))
      = (fun i : Fin Npegs => decide (g2.get i = g1.get i)) := by
    funext i
    exact decide_eq_decide.mpr eq_comm
  rw [hfun]

/-- `Compare` does not depend on the order of its arguments. -/
theorem Compare_comm (g1 g2 : Guess) : Compare g1 g2 = Compare g2 g1 := by
  rw [Compare_eq_reference, Compare_eq_reference]
  unfold referenceScore
  rw [samePositions_comm g1 g2, commonColors_eq g1 g2, commonColors_eq g2 g1,
    Multiset.inter_comm]

theorem Compare_self (g : Guess) : Compare g g = { blacks := (Npegs : Int), whites := 0 } := by
  obtain ⟨_, hw, ht⟩ := Compare_range g g
  have hb : (Compare g g).blacks = (Npegs : Int) := (Compare_blacks_eq_iff g g).mpr rfl
  have hw0 : (Compare g g).whites = 0 := by omega
  cases hc : Compare g g with
  | mk b w =>
    rw [hc] at hb hw0
    simp only at hb hw0
    rw [hb, hw0]

/-- Guesses without a common color score no black and no white peg. -/
theorem Compare_no_common (g1 g2 : Guess) (h : ∀ c, c ∈ g1.toList → c ∉ g2.toList) :
    Compare g1 g2 = { blacks := 0, whites := 0 } := by
  obtain ⟨hb, hw, _⟩ := Compare_range g1 g2
  have hz : colorsOf g1 ∩ colorsOf g2 = 0 := by
    rw [Multiset.inter_eq_zero_iff_disjoint, Multiset.disjoint_left]
    intro c h1 h2
    exact h c (by simpa [colorsOf] using h1) (by simpa [colorsOf] using h2)
  have ht : (Compare g1 g2).blacks + (Compare g1 g2).whites = 0 := by
    have e1 : (Compare g1 g2).blacks = (compareLoops g1 g2).blacks := by simp only [Compare]
    have e2 : (Compare g1 g2).whites = (compareLoops g1 g2).whites := by simp only [Compare]
    rw [e1, e2, (compareLoops_spec g1 g2).2.2, hz]
    simp
  have hb0 : (Compare g1 g2).blacks = 0 := by omega
  have hw0 : (Compare g1 g2).whites = 0 := by omega
  cases hc : Compare g1 g2 with
  | mk b w =>
    rw [hc] at hb0 hw0
    simp only at hb0 hw0
    rw [hb0, hw0]

theorem Index_Compare_range (g1 g2 : Guess) :
    0 ≤ Index (Compare g1 g2) ∧ Index (Compare g1 g2) < (frequencyListSize : Int) := by
  obtain ⟨hb, hw, ht⟩ := Compare_range g1 g2
  have hN : (Npegs : Int) = 4 := rfl
  have hS : (frequencyListSize : Int) = 25 := rfl
  unfold Index
  rw [hN] at ht ⊢
  rw [hS]
  omega

/-- C13: `Compare` never reports more pegs than positions: both counts are not
negative and `blacks + whites <= Npegs`, so `Index (Compare g1 g2)` lies inside
the frequency list. -/
theorem C13_Compare_within_pegs :
    ∀ g1 g2 : Guess,
      0 ≤ (Compare g1 g2).blacks ∧ 0 ≤ (Compare g1 g2).whites ∧
      (Compare g1 g2).blacks + (Compare g1 g2).whites ≤ (Npegs : Int) ∧
      0 ≤ Index (Compare g1 g2) ∧ Index (Compare g1 g2) < (frequencyListSize : Int) := by
  intro g1 g2
  obtain ⟨hb, hw, ht⟩ := Compare_range g1 g2
  exact ⟨hb, hw, ht, Index_Compare_range g1 g2⟩

/-- C14: `Compare` is symmetric: `Compare a b = Compare b a` for all guesses. -/
theorem C14_Compare_symmetric : ∀ a b : Guess, Compare a b = Compare b a :=
  fun a b => Compare_comm a b

/-- C15: every guess compared with itself scores `Npegs` blacks and no white. -/
theorem C15_Compare_self :
    ∀ g : Guess, Compare g g = { blacks := (Npegs : Int), whites := 0 } :=
  fun g => Compare_self g

/-- C16: guesses such that no color occurs in both score `(0, 0)`. -/
theorem C16_Compare_no_shared_color (g1 g2 : Guess)
    (h : ∀ c, c ∈ g1.toList → c ∉ g2.toList) :
    Compare g1 g2 = { blacks := 0, whites := 0 } :=
  Compare_no_common g1 g2 h

/-- C16 at the guesses `[1,1,1,1]` and `[2,3,4,0]`. -/
theorem C16_Compare_no_shared_color_witness :
    (∀ c, c ∈ Mathlib.Vector.toList (⟨[1, 1, 1, 1], rfl⟩ : Guess) →
      c ∉ Mathlib.Vector.toList (⟨[2, 3, 4, 0], rfl⟩ : Guess)) ∧
    Compare ⟨[1, 1, 1, 1], rfl⟩ ⟨[2, 3, 4, 0], rfl⟩ = { blacks := 0, whites := 0 } := by
  have h : ∀ c, c ∈ Mathlib.Vector.toList (⟨[1, 1, 1, 1], rfl⟩ : Guess) →
      c ∉ Mathlib.Vector.toList (⟨[2, 3, 4, 0], rfl⟩ : Guess) := by
    intro c hc
    simp only [Mathlib.Vector.toList, List.mem_cons, List.mem_singleton, List.not_mem_nil,
      or_false, or_self] at hc
    subst hc
    decide
  exact ⟨h, C16_Compare_no_shared_color _ _ h⟩

/-- C17: `AllowsAll` is the conjunction of `Allows`: `AllowsAll facts g` is true if
and only if `Allows f g` is true for every `f` in `facts`; for the empty fact
list it is true for every guess. -/
theorem C17_AllowsAll_is_conjunction :
    (∀ (facts : List Fact) (g : Guess),
      AllowsAll facts g = true ↔ ∀ f ∈ facts, Allows f g = true) ∧
    (∀ g : Guess, AllowsAll [] g = true) :=
  ⟨AllowsAll_iff, fun _ => rfl⟩

/-! ## Further properties of the constraint store and the game loop -/

theorem Allows_wrong_guess (g secret : Guess) (hne : g ≠ secret) :
    Allows { guess := g, answer := Compare g secret } g = false := by
  cases h : Allows { guess := g, answer := Compare g secret } g with
  | false => rfl
  | true =>
    rw [Allows_mk] at h
    have h4 : (Compare g secret).blacks = (Npegs : Int) := by
      rw [h]
      exact (Compare_blacks_eq_iff g g).mpr rfl
    exact absurd ((Compare_blacks_eq_iff g secret).mp h4) hne

theorem AllowsAll_eq_false_of_mem (facts : List Fact) (f : Fact) (g : Guess) (hf : f ∈ facts)
    (h : Allows f g = false) : AllowsAll facts g = false := by
  cases hc : AllowsAll facts g with
  | false => rfl
  | true =>
    have := (AllowsAll_iff facts g).mp hc f hf
    rw [h] at this
    exact absurd this (by simp)

theorem possible_append_subset (facts : List Fact) (f : Fact) :
    allGuesses.filter (AllowsAll (facts ++ [f])) ⊆ allGuesses.filter (AllowsAll facts) := by
  intro g hg
  obtain ⟨h1, h2⟩ := List.mem_filter.mp hg
  rw [AllowsAll_append, Bool.and_eq_true] at h2
  exact List.mem_filter.mpr ⟨h1, h2.2⟩

section LoopFurther

variable {F : Type} [LinearOrderedField F]

/-- One pass of the loop of `Play`, with any oracle, keeps the facts or appends one. -/
theorem playBody_facts_any (log : F → F) (ask : Guess → Answer × Bool) (st st1 : PlayState)
    (h : playBody log ask st = PlayNext.next st1) :
    st1.facts = st.facts ∨ ∃ f, st1.facts = st.facts ++ [f] := by
  unfold playBody at h
  split at h
  · split at h
    · exact absurd h (by simp)
    · rename_i guess state n _
      split at h
      · exact absurd h (by simp)
      · split at h
        rename_i answer quit _
        split at h
        · exact absurd h (by simp)
        · split at h
          · injection h with h; subst h; exact Or.inl rfl
          · injection h with h; subst h; exact Or.inr ⟨_, rfl⟩
  · exact absurd h (by simp)

theorem playIter_possible_subset (log : F → F) (ask : Guess → Answer × Bool) (n : Nat) :
    allGuesses.filter (AllowsAll (playIter log ask (n + 1)).facts)
      ⊆ allGuesses.filter (AllowsAll (playIter log ask n).facts) := by
  have hstep : (playIter log ask (n + 1)).facts = (playIter log ask n).facts ∨
      ∃ f, (playIter log ask (n + 1)).facts = (playIter log ask n).facts ++ [f] := by
    conv => lhs; rw [playIter]
    conv => rhs; arg 1; intro f; rw [playIter]
    split
    · rename_i st hst
      exact playBody_facts_any log ask _ _ hst
    · exact Or.inl rfl
  rcases hstep with e | ⟨f, e⟩
  · rw [e]
    exact fun g hg => hg
  · rw [e]
    exact possible_append_subset _ f

/-- In self-play a pass of the loop of `Play` records a fact only for a guess that
is not the secret. -/
theorem playBody_facts_wrong (log : F → F) (secret : Guess) (st st1 : PlayState)
    (h : playBody log (autoAsk secret) st = PlayNext.next st1) :
    st1.facts = st.facts ∨
      ∃ g, g ≠ secret ∧ st1.facts = st.facts ++ [{ guess := g, answer := Compare g secret }] := by
  unfold playBody at h
  split at h
  · split at h
    · exact absurd h (by simp)
    · rename_i guess state n _
      split at h
      · exact absurd h (by simp)
      · simp only [autoAsk] at h
        split at h
        · exact absurd h (by simp)
        · split at h
          · injection h with h; subst h; exact Or.inl rfl
          · rename_i hnb
            injection h with h; subst h
            exact Or.inr ⟨guess, fun e => hnb ((AllBlacks_Compare guess secret).mpr e), rfl⟩
  · exact absurd h (by simp)

theorem playIter_facts_wrong (log : F → F) (secret : Guess) (n : Nat) :
    ∀ f ∈ (playIter log (autoAsk secret) n).facts,
      ∃ g, g ≠ secret ∧ f = { guess := g, answer := Compare g secret } := by
  induction n with
  | zero => intro f hf; simp [playIter, playInit] at hf
  | succ n ih =>
    intro f hf
    unfold playIter at hf
    split at hf
    · rename_i st hst
      rcases playBody_facts_wrong log secret _ _ hst with e | ⟨g, hg, e⟩
      · rw [e] at hf; exact ih f hf
      · rw [e] at hf
        rcases List.mem_append.mp hf with hf | hf
        · exact ih f hf
        · exact ⟨g, hg, by simpa using hf⟩
    · exact ih f hf

end LoopFurther

/-- C11: the codeword space built by `calculateAllGuesses` contains exactly the
guesses (of `Npegs = 4` positions) whose colors are all among the `Ncolors`
values `0 .. Ncolors - 1`, `Empty` included; each of them occurs exactly once,
so the list has no duplicates and `Ncolors ^ Npegs` elements. -/
theorem C11_codeword_space_is_complete :
    (∀ g : Guess, g ∈ allGuesses ↔ ∀ c ∈ g.toList, 0 ≤ c ∧ c < (Ncolors : Int)) ∧
    (∀ g : Guess, allGuesses.count g = 1 ↔ ∀ c ∈ g.toList, 0 ≤ c ∧ c < (Ncolors : Int)) ∧
    (∀ g : Guess, g.toList.length = Npegs) ∧
    (⟨[Empty, Empty, Empty, Empty], rfl⟩ : Guess) ∈ allGuesses ∧
    allGuesses.Nodup ∧
    allGuesses.length = Ncolors ^ Npegs := by
  refine ⟨mem_allGuesses, ?_, fun g => g.toList_length, zeros_mem_allGuesses,
    allGuesses_nodup, allGuesses_length⟩
  intro g
  rw [← mem_allGuesses]
  constructor
  · intro h
    exact List.count_pos_iff.mp (by omega)
  · exact List.count_eq_one_of_mem allGuesses_nodup

/-- C12: constraints only narrow.  A guess that satisfies `AllowsAll` for the facts
with one more fact appended satisfies it for the facts; so the codewords that
are possible with the fact appended are among those possible before, and with
any oracle the possible secrets after a pass of the loop of `Play` are among
the possible secrets before it. -/
theorem C12_constraints_only_narrow {F : Type} [LinearOrderedField F] (log : F → F)
    (ask : Guess → Answer × Bool) (facts : List Fact) (f : Fact) (g : Guess)
    (h : AllowsAll (facts ++ [f]) g = true) :
    AllowsAll facts g = true ∧
    allGuesses.filter (AllowsAll (facts ++ [f])) ⊆ allGuesses.filter (AllowsAll facts) ∧
    ∀ n : Nat,
      allGuesses.filter (AllowsAll (playIter log ask (n + 1)).facts)
        ⊆ allGuesses.filter (AllowsAll (playIter log ask n).facts) := by
  refine ⟨?_, possible_append_subset facts f, playIter_possible_subset log ask⟩
  rw [AllowsAll_append, Bool.and_eq_true] at h
  exact h.2

/-- C12 at the empty fact list, the fact `([0,0,0,0], (4,0))` and the guess
`[0,0,0,0]`, with the oracle of self-play against `[0,0,0,0]`. -/
theorem C12_constraints_only_narrow_witness :
    AllowsAll
        ([] ++ [{ guess := ⟨[0, 0, 0, 0], rfl⟩, answer := { blacks := 4, whites := 0 } }])
        ⟨[0, 0, 0, 0], rfl⟩ = true ∧
    (AllowsAll [] ⟨[0, 0, 0, 0], rfl⟩ = true ∧
      allGuesses.filter
          (AllowsAll
            ([] ++ [{ guess := ⟨[0, 0, 0, 0], rfl⟩, answer := { blacks := 4, whites := 0 } }]))
        ⊆ allGuesses.filter (AllowsAll []) ∧
      ∀ n : Nat,
        allGuesses.filter
            (AllowsAll
              (playIter (fun x : ℚ => x) (autoAsk ⟨[0, 0, 0, 0], rfl⟩) (n + 1)).facts)
          ⊆ allGuesses.filter
            (AllowsAll (playIter (fun x : ℚ => x) (autoAsk ⟨[0, 0, 0, 0], rfl⟩) n).facts)) := by
  have h : AllowsAll
      ([] ++ [{ guess := ⟨[0, 0, 0, 0], rfl⟩, answer := { blacks := 4, whites := 0 } }])
      ⟨[0, 0, 0, 0], rfl⟩ = true := by decide
  exact ⟨h, C12_constraints_only_narrow (fun x : ℚ => x) (autoAsk ⟨[0, 0, 0, 0], rfl⟩) [] _ _ h⟩

/-- C20: `AllBlacks (Compare a b)` holds if and only if `a = b`.  So the fact
recorded for a guess `g` against the secret allows `g` itself only when `g` is
the secret, wherever the fact stands among the facts; and in self-play every
fact that `Play` has recorded after any number of rounds belongs to a guess
that differs from the secret and that the recorded facts exclude. -/
theorem C20_full_match_iff_equal {F : Type} [LinearOrderedField F] (log : F → F) :
    (∀ a b : Guess, AllBlacks (Compare a b) = true ↔ a = b) ∧
    (∀ (g secret : Guess) (before after : List Fact),
      AllowsAll (before ++ [{ guess := g, answer := Compare g secret }] ++ after) g = true
        ↔ g = secret ∧ AllowsAll (before ++ after) g = true) ∧
    (∀ (secret : Guess) (n : Nat),
      ∀ f ∈ (playIter log (autoAsk secret) n).facts,
        f.guess ≠ secret ∧ f.answer = Compare f.guess secret ∧
          AllowsAll (playIter log (autoAsk secret) n).facts f.guess = false) := by
  refine ⟨AllBlacks_Compare, ?_, ?_⟩
  · intro g secret before after
    constructor
    · intro h
      have hall := (AllowsAll_iff _ _).mp h
      have hg : g = secret := by
        by_contra hne
        have h1 := hall { guess := g, answer := Compare g secret } (by simp)
        rw [Allows_wrong_guess g secret hne] at h1
        exact absurd h1 (by simp)
      refine ⟨hg, (AllowsAll_iff _ _).mpr ?_⟩
      intro f hf
      apply hall f
      rcases List.mem_append.mp hf with hf | hf
      · exact List.mem_append_left _ (List.mem_append_left _ hf)
      · exact List.mem_append_right _ hf
    · rintro ⟨hg, h⟩
      have hall := (AllowsAll_iff _ _).mp h
      refine (AllowsAll_iff _ _).mpr ?_
      intro f hf
      rcases List.mem_append.mp hf with hf | hf
      · rcases List.mem_append.mp hf with hf | hf
        · exact hall f (List.mem_append_left _ hf)
        · have e : f = { guess := g, answer := Compare g secret } := by simpa using hf
          rw [e, hg]
          exact Allows_self secret secret
      · exact hall f (List.mem_append_right _ hf)
  · intro secret n f hf
    obtain ⟨g, hg, e⟩ := playIter_facts_wrong log secret n f hf
    have e1 : f.guess = g := by rw [e]
    have e2 : f.answer = Compare g secret := by rw [e]
    refine ⟨by rw [e1]; exact hg, by rw [e1]; exact e2, ?_⟩
    apply AllowsAll_eq_false_of_mem _ f _ hf
    rw [e1]
    conv => lhs; arg 1; rw [e]
    exact Allows_wrong_guess g secret hg

/-! ## The tie-break of the selector -/

section TieBreakFacts

variable {F : Type} [LinearOrderedField F]

theorem selectLoop_eq (facts : List Fact) (m : F) (pairs : List (Guess × F)) :
    ∀ idx maxIdx : Nat,
      selectLoop facts m pairs idx maxIdx
        = match (maxAllowed facts m pairs).head? with
          | some p => Sum.inl p.1
          | none => Sum.inr (lastIdx m pairs idx maxIdx) := by
  induction pairs with
  | nil => intro idx maxIdx; rfl
  | cons p rest ih =>
    intro idx maxIdx
    obtain ⟨g, v⟩ := p
    by_cases hv : v = m
    · cases ha : AllowsAll facts g with
      | true =>
        simp [selectLoop, maxAllowed, hv, ha]
      | false =>
        have hf : maxAllowed facts m ((g, v) :: rest) = maxAllowed facts m rest := by
          simp [maxAllowed, hv, ha]
        rw [hf]
        simp only [selectLoop, if_pos hv, ha, Bool.false_eq_true, if_false, lastIdx]
        exact ih _ _
    · have hf : maxAllowed facts m ((g, v) :: rest) = maxAllowed facts m rest := by
        simp [maxAllowed, hv]
      rw [hf]
      simp only [selectLoop, if_neg hv, lastIdx]
      exact ih _ _

theorem get_lastIdx (m : F) (pairs : List (Guess × F)) :
    ∀ (pre : List (Guess × F)) (maxIdx : Nat),
      ((pre ++ pairs).map Prod.fst)[lastIdx m pairs pre.length maxIdx]?
        = match (maxScoring m pairs).getLast? with
          | some p => some p.1
          | none => ((pre ++ pairs).map Prod.fst)[maxIdx]? := by
  induction pairs with
  | nil => intro pre maxIdx; simp [lastIdx, maxScoring]
  | cons p rest ih =>
    intro pre maxIdx
    obtain ⟨g, v⟩ := p
    have hih := ih (pre ++ [(g, v)]) (if v = m then pre.length else maxIdx)
    have happ : pre ++ [(g, v)] ++ rest = pre ++ (g, v) :: rest := by simp
    rw [happ, List.length_append, List.length_singleton] at hih
    simp only [lastIdx]
    rw [hih]
    by_cases hv : v = m
    · have hf : maxScoring m ((g, v) :: rest) = (g, v) :: maxScoring m rest := by
        simp [maxScoring, hv]
      rw [hf, List.getLast?_cons, if_pos hv]
      cases hl : (maxScoring m rest).getLast? with
      | none =>
        simp only [Option.getD_none, List.map_append, List.map_cons]
        rw [List.getElem?_append_right (by simp)]
        simp
      | some q => simp
    · have hf : maxScoring m ((g, v) :: rest) = maxScoring m rest := by
        simp [maxScoring, hv]
      rw [hf, if_neg hv]

/-- The scan at the end of `MakeGuess` follows `firstTieBreak`, whatever the scores. -/
theorem selectGuess_eq (facts : List Fact) (m : F) (pairs : List (Guess × F)) :
    selectGuess facts m pairs = firstTieBreak facts m pairs := by
  unfold selectGuess firstTieBreak
  rw [selectLoop_eq]
  cases hh : (maxAllowed facts m pairs).head? with
  | some p => rfl
  | none =>
    have h := get_lastIdx m pairs [] 0
    simp only [List.nil_append, List.length_nil] at h
    simp only [List.get?_eq_getElem?]
    rw [h]
    cases hl : (maxScoring m pairs).getLast? with
    | some q => rfl
    | none =>
      cases pairs with
      | nil => rfl
      | cons a as => simp

/-- The value that the maximum loop of `MakeGuess` finds is one of the scores and
no score is larger. -/
theorem maxLoop_spec (l : List F) :
    ∀ m0 : F, (∀ v ∈ m0 :: l, v ≤ maxLoop m0 l) ∧ maxLoop m0 l ∈ m0 :: l := by
  induction l with
  | nil => intro m0; simp [maxLoop]
  | cons v l ih =>
    intro m0
    have e : maxLoop m0 (v :: l) = maxLoop (if v > m0 then v else m0) l := by
      simp [maxLoop]
    obtain ⟨h1, h2⟩ := ih (if v > m0 then v else m0)
    rw [e]
    have hm : (if v > m0 then v else m0) ≤ maxLoop (if v > m0 then v else m0) l :=
      h1 _ (List.mem_cons_self _ _)
    have hm0 : m0 ≤ (if v > m0 then v else m0) := by
      split
      · rename_i h; exact le_of_lt h
      · exact le_refl _
    have hv : v ≤ (if v > m0 then v else m0) := by
      split
      · exact le_refl _
      · rename_i h; exact not_lt.mp h
    constructor
    · intro w hw
      rcases List.mem_cons.mp hw with rfl | hw
      · exact le_trans hm0 hm
      · rcases List.mem_cons.mp hw with rfl | hw
        · exact le_trans hv hm
        · exact h1 w (List.mem_cons_of_mem _ hw)
    · rcases List.mem_cons.mp h2 with e2 | h2
      · rw [e2]
        split
        · exact List.mem_cons_of_mem _ (List.mem_cons_self _ _)
        · exact List.mem_cons_self _ _
      · exact List.mem_cons_of_mem _ (List.mem_cons_of_mem _ h2)

theorem maxAllowed_const (facts : List Fact) (x : F) (l : List Guess) :
    maxAllowed facts x (l.map (fun c => (c, x)))
      = (l.filter (AllowsAll facts)).map (fun c => (c, x)) := by
  unfold maxAllowed
  rw [List.filter_map]
  congr 1
  apply List.filter_congr
  intro c _
  simp

end TieBreakFacts

/-- Two different codewords that satisfy the facts make at least two possible
secrets. -/
theorem two_possible (facts : List Fact) (g1 g2 : Guess) (h1 : g1 ∈ allGuesses)
    (h2 : g2 ∈ allGuesses) (hne : g1 ≠ g2) (a1 : AllowsAll facts g1 = true)
    (a2 : AllowsAll facts g2 = true) :
    ∃ g g0 rest, allGuesses.filter (AllowsAll facts) = g :: g0 :: rest := by
  have m1 : g1 ∈ allGuesses.filter (AllowsAll facts) := List.mem_filter.mpr ⟨h1, a1⟩
  have m2 : g2 ∈ allGuesses.filter (AllowsAll facts) := List.mem_filter.mpr ⟨h2, a2⟩
  cases hP : allGuesses.filter (AllowsAll facts) with
  | nil => rw [hP] at m1; simp at m1
  | cons g rest =>
    cases rest with
    | nil =>
      rw [hP] at m1 m2
      have e1 : g1 = g := by simpa using m1
      have e2 : g2 = g := by simpa using m2
      exact absurd (e1.trans e2.symm) hne
    | cons g0 rest => exact ⟨g, g0, rest, rfl⟩

section TieBreakSelector

variable {F : Type} [LinearOrderedField F]

theorem firstTieBreak_const (facts : List Fact) (x : F) (l : List Guess) (g : Guess)
    (rest : List Guess) (h : l.filter (AllowsAll facts) = g :: rest) :
    firstTieBreak facts x (l.zip (l.map (fun _ => x))) = some g := by
  rw [zip_map_const]
  unfold firstTieBreak
  rw [maxAllowed_const, h]
  rfl

theorem lastTieBreak_const (facts : List Fact) (x : F) (l : List Guess) (g : Guess)
    (rest : List Guess) (h : l.filter (AllowsAll facts) = rest ++ [g]) :
    lastTieBreak facts x (l.zip (l.map (fun _ => x))) = some g := by
  rw [zip_map_const]
  unfold lastTieBreak
  rw [maxAllowed_const, h, List.map_append, List.map_singleton, List.getLast?_concat]

/-- What `MakeGuess` computes when at least two codewords are possible: the scores,
the guess, and the guess as the tie-break `firstTieBreak` of the scores. -/
theorem MakeGuess_tieBreak (log : F → F) (facts : List Fact) (hf : facts ≠ [])
    (g g0 : Guess) (rest : List Guess)
    (hP : allGuesses.filter (AllowsAll facts) = g :: g0 :: rest) :
    ∃ (v0 : F) (tail : List F),
      scoreAll log (allGuesses.filter (AllowsAll facts)) = some (v0 :: tail) ∧
      MakeGuess log facts = some (g, Status.Notfound, ((rest.length + 2 : Nat) : Int)) ∧
      firstTieBreak facts (maxLoop v0 (v0 :: tail)) (allGuesses.zip (v0 :: tail)) = some g := by
  have hne : allGuesses ≠ [] := by
    intro e
    rw [e] at hP
    simp at hP
  obtain ⟨a, as, ha⟩ := List.exists_cons_of_ne_nil hne
  generalize hx : InfoValue log (Mathlib.Vector.replicate frequencyListSize 0) = x
  have hmap : allGuesses.map (fun _ => x) = x :: as.map (fun _ => x) := by
    rw [ha]
    rfl
  have hs := scoreAll_eq log (allGuesses.filter (AllowsAll facts))
  rw [hx, hmap] at hs
  refine ⟨x, as.map (fun _ => x), hs, MakeGuess_many_left log facts hf g g0 rest hP, ?_⟩
  rw [← hmap, maxLoop_const x _ (by
    intro v hv
    obtain ⟨_, _, e⟩ := List.mem_map.mp hv
    exact e.symm)]
  exact firstTieBreak_const facts x allGuesses g (g0 :: rest) hP

end TieBreakSelector

/-- C18, as the claim states it, fails: after the facts `([6,1,2,3], (1,0))` and
`([0,0,0,3], (2,1))` every codeword has the same score, the codewords that attain
it and satisfy the facts are `[0,0,2,0]`, `[0,1,0,0]` and `[6,0,0,0]`, the last of
them in enumeration order is `[6,0,0,0]`, and `MakeGuess` returns `[0,0,2,0]`. -/
theorem C18_last_possible_is_not_returned :
    MakeGuess (fun x : ℚ => x)
        [{ guess := ⟨[6, 1, 2, 3], rfl⟩, answer := { blacks := 1, whites := 0 } },
         { guess := ⟨[0, 0, 0, 3], rfl⟩, answer := { blacks := 2, whites := 1 } }]
      = some (⟨[0, 0, 2, 0], rfl⟩, Status.Notfound, 3) ∧
    scoreAll (fun x : ℚ => x) (allGuesses.filter (AllowsAll
        [{ guess := ⟨[6, 1, 2, 3], rfl⟩, answer := { blacks := 1, whites := 0 } },
         { guess := ⟨[0, 0, 0, 3], rfl⟩, answer := { blacks := 2, whites := 1 } }]))
      = some (allGuesses.map (fun _ => InfoValue (fun x : ℚ => x) (Mathlib.Vector.replicate frequencyListSize 0))) ∧
    maxLoop (InfoValue (fun x : ℚ => x) (Mathlib.Vector.replicate frequencyListSize 0))
        (allGuesses.map (fun _ => InfoValue (fun x : ℚ => x) (Mathlib.Vector.replicate frequencyListSize 0)))
      = InfoValue (fun x : ℚ => x) (Mathlib.Vector.replicate frequencyListSize 0) ∧
    lastTieBreak
        [{ guess := ⟨[6, 1, 2, 3], rfl⟩, answer := { blacks := 1, whites := 0 } },
         { guess := ⟨[0, 0, 0, 3], rfl⟩, answer := { blacks := 2, whites := 1 } }]
        (InfoValue (fun x : ℚ => x) (Mathlib.Vector.replicate frequencyListSize 0))
        (allGuesses.zip (allGuesses.map (fun _ => InfoValue (fun x : ℚ => x) (Mathlib.Vector.replicate frequencyListSize 0))))
      = some ⟨[6, 0, 0, 0], rfl⟩ ∧
    (⟨[0, 0, 2, 0], rfl⟩ : Guess) ≠ ⟨[6, 0, 0, 0], rfl⟩ := by
  refine ⟨?_, scoreAll_eq _ _, ?_, ?_, by decide⟩
  · have hm := MakeGuess_many_left (fun x : ℚ => x) _ (by simp) _ _ _ possible_after_two_facts
    simpa using hm
  · exact maxLoop_const _ _ (by
      intro v hv
      obtain ⟨_, _, e⟩ := List.mem_map.mp hv
      exact e.symm)
  · exact lastTieBreak_const _ _ allGuesses ⟨[6, 0, 0, 0], rfl⟩
      [⟨[0, 0, 2, 0], rfl⟩, ⟨[0, 1, 0, 0], rfl⟩] possible_after_two_facts

/-- C18, amended: when the facts are not empty and at least two codewords are
possible, `MakeGuess` returns the first codeword in enumeration order that both
attains the maximum score and satisfies `AllowsAll`; and the scan at the end of
`MakeGuess` returns, for any scores, the first codeword that attains the maximum
and satisfies `AllowsAll` if there is one, and otherwise the last codeword that
attains the maximum, the maximum being a score that no score exceeds. -/
theorem C18_tie_break_first_possible {F : Type} [LinearOrderedField F] (log : F → F)
    (facts : List Fact) (hf : facts ≠ []) (g1 g2 : Guess) (h1 : g1 ∈ allGuesses)
    (h2 : g2 ∈ allGuesses) (hne : g1 ≠ g2) (a1 : AllowsAll facts g1 = true)
    (a2 : AllowsAll facts g2 = true) :
    (∃ (g : Guess) (n : Int) (v0 : F) (tail : List F),
      scoreAll log (allGuesses.filter (AllowsAll facts)) = some (v0 :: tail) ∧
      MakeGuess log facts = some (g, Status.Notfound, n) ∧
      firstTieBreak facts (maxLoop v0 (v0 :: tail)) (allGuesses.zip (v0 :: tail)) = some g) ∧
    (∀ (fs : List Fact) (m : F) (pairs : List (Guess × F)),
      selectGuess fs m pairs = firstTieBreak fs m pairs) ∧
    (∀ (v0 : F) (l : List F), (∀ v ∈ v0 :: l, v ≤ maxLoop v0 l) ∧ maxLoop v0 l ∈ v0 :: l) := by
  obtain ⟨g, g0, rest, hP⟩ := two_possible facts g1 g2 h1 h2 hne a1 a2
  obtain ⟨v0, tail, hs, hm, ht⟩ := MakeGuess_tieBreak log facts hf g g0 rest hP
  exact ⟨⟨g, _, v0, tail, hs, hm, ht⟩, selectGuess_eq, fun v0 l => maxLoop_spec l v0⟩

/-- C18, amended, at the fact `([0,0,0,0], (3,0))`, which `[0,0,0,1]` and `[0,0,0,2]`
satisfy. -/
theorem C18_tie_break_first_possible_witness :
    (([{ guess := ⟨[0, 0, 0, 0], rfl⟩, answer := { blacks := 3, whites := 0 } }] : List Fact) ≠ [] ∧
      (⟨[0, 0, 0, 1], rfl⟩ : Guess) ∈ allGuesses ∧
      (⟨[0, 0, 0, 2], rfl⟩ : Guess) ∈ allGuesses ∧
      (⟨[0, 0, 0, 1], rfl⟩ : Guess) ≠ ⟨[0, 0, 0, 2], rfl⟩ ∧
      AllowsAll [{ guess := ⟨[0, 0, 0, 0], rfl⟩, answer := { blacks := 3, whites := 0 } }] ⟨[0, 0, 0, 1], rfl⟩ = true ∧
      AllowsAll [{ guess := ⟨[0, 0, 0, 0], rfl⟩, answer := { blacks := 3, whites := 0 } }] ⟨[0, 0, 0, 2], rfl⟩ = true) ∧
    ((∃ (g : Guess) (n : Int) (v0 : ℚ) (tail : List ℚ),
      scoreAll (fun x : ℚ => x) (allGuesses.filter (AllowsAll
          [{ guess := ⟨[0, 0, 0, 0], rfl⟩, answer := { blacks := 3, whites := 0 } }])) = some (v0 :: tail) ∧
      MakeGuess (fun x : ℚ => x)
          [{ guess := ⟨[0, 0, 0, 0], rfl⟩, answer := { blacks := 3, whites := 0 } }] = some (g, Status.Notfound, n) ∧
      firstTieBreak
          [{ guess := ⟨[0, 0, 0, 0], rfl⟩, answer := { blacks := 3, whites := 0 } }]
          (maxLoop v0 (v0 :: tail)) (allGuesses.zip (v0 :: tail)) = some g) ∧
    (∀ (fs : List Fact) (m : ℚ) (pairs : List (Guess × ℚ)),
      selectGuess fs m pairs = firstTieBreak fs m pairs) ∧
    (∀ (v0 : ℚ) (l : List ℚ), (∀ v ∈ v0 :: l, v ≤ maxLoop v0 l) ∧ maxLoop v0 l ∈ v0 :: l)) := by
  have hf : ([{ guess := ⟨[0, 0, 0, 0], rfl⟩, answer := { blacks := 3, whites := 0 } }] : List Fact) ≠ [] := by simp
  have h1 : (⟨[0, 0, 0, 1], rfl⟩ : Guess) ∈ allGuesses := (mem_allGuesses _).mpr (by decide)
  have h2 : (⟨[0, 0, 0, 2], rfl⟩ : Guess) ∈ allGuesses := (mem_allGuesses _).mpr (by decide)
  have hne : (⟨[0, 0, 0, 1], rfl⟩ : Guess) ≠ ⟨[0, 0, 0, 2], rfl⟩ := by decide
  have a1 : AllowsAll [{ guess := ⟨[0, 0, 0, 0], rfl⟩, answer := { blacks := 3, whites := 0 } }] ⟨[0, 0, 0, 1], rfl⟩ = true := by decide
  have a2 : AllowsAll [{ guess := ⟨[0, 0, 0, 0], rfl⟩, answer := { blacks := 3, whites := 0 } }] ⟨[0, 0, 0, 2], rfl⟩ = true := by decide
  exact ⟨⟨hf, h1, h2, hne, a1, a2⟩,
    C18_tie_break_first_possible (fun x : ℚ => x) _ hf _ _ h1 h2 hne a1 a2⟩

/-- C19: when the facts are not empty and at least two codewords satisfy
`AllowsAll`, `MakeGuess` returns the first codeword of `allGuesses`, in
enumeration order, that satisfies `AllowsAll`, with status `Notfound`: every
codeword gets the same score, that of the all-zero frequency list, so the
choice depends neither on the answers of the possible secrets nor on the
logarithm. -/
theorem C19_first_possible_codeword {F : Type} [LinearOrderedField F] (log : F → F)
    (facts : List Fact) (hf : facts ≠ []) (g1 g2 : Guess) (h1 : g1 ∈ allGuesses)
    (h2 : g2 ∈ allGuesses) (hne : g1 ≠ g2) (a1 : AllowsAll facts g1 = true)
    (a2 : AllowsAll facts g2 = true) :
    ∃ (g : Guess) (n : Int),
      MakeGuess log facts = some (g, Status.Notfound, n) ∧
      allGuesses.find? (AllowsAll facts) = some g ∧
      scoreAll log (allGuesses.filter (AllowsAll facts))
        = some (allGuesses.map
            (fun _ => InfoValue log (Mathlib.Vector.replicate frequencyListSize 0))) ∧
      ∀ log1 : F → F, MakeGuess log1 facts = some (g, Status.Notfound, n) := by
  obtain ⟨g, g0, rest, hP⟩ := two_possible facts g1 g2 h1 h2 hne a1 a2
  exact ⟨g, _, MakeGuess_many_left log facts hf g g0 rest hP,
    find_of_filter _ _ g (g0 :: rest) hP, scoreAll_eq log _,
    fun log1 => MakeGuess_many_left log1 facts hf g g0 rest hP⟩

/-- C19 at the fact `([0,0,0,0], (3,0))`, which `[0,0,0,1]` and `[0,0,0,2]` satisfy. -/
theorem C19_first_possible_codeword_witness :
    (([{ guess := ⟨[0, 0, 0, 0], rfl⟩, answer := { blacks := 3, whites := 0 } }] : List Fact) ≠ [] ∧
      (⟨[0, 0, 0, 1], rfl⟩ : Guess) ∈ allGuesses ∧
      (⟨[0, 0, 0, 2], rfl⟩ : Guess) ∈ allGuesses ∧
      (⟨[0, 0, 0, 1], rfl⟩ : Guess) ≠ ⟨[0, 0, 0, 2], rfl⟩ ∧
      AllowsAll [{ guess := ⟨[0, 0, 0, 0], rfl⟩, answer := { blacks := 3, whites := 0 } }] ⟨[0, 0, 0, 1], rfl⟩ = true ∧
      AllowsAll [{ guess := ⟨[0, 0, 0, 0], rfl⟩, answer := { blacks := 3, whites := 0 } }] ⟨[0, 0, 0, 2], rfl⟩ = true) ∧
    ∃ (g : Guess) (n : Int),
      MakeGuess (fun x : ℚ => x)
          [{ guess := ⟨[0, 0, 0, 0], rfl⟩, answer := { blacks := 3, whites := 0 } }] = some (g, Status.Notfound, n) ∧
      allGuesses.find? (AllowsAll
          [{ guess := ⟨[0, 0, 0, 0], rfl⟩, answer := { blacks := 3, whites := 0 } }]) = some g ∧
      scoreAll (fun x : ℚ => x) (allGuesses.filter (AllowsAll
          [{ guess := ⟨[0, 0, 0, 0], rfl⟩, answer := { blacks := 3, whites := 0 } }]))
        = some (allGuesses.map
            (fun _ => InfoValue (fun x : ℚ => x) (Mathlib.Vector.replicate frequencyListSize 0))) ∧
      ∀ log1 : ℚ → ℚ, MakeGuess log1
          [{ guess := ⟨[0, 0, 0, 0], rfl⟩, answer := { blacks := 3, whites := 0 } }] = some (g, Status.Notfound, n) := by
  have hf : ([{ guess := ⟨[0, 0, 0, 0], rfl⟩, answer := { blacks := 3, whites := 0 } }] : List Fact) ≠ [] := by simp
  have h1 : (⟨[0, 0, 0, 1], rfl⟩ : Guess) ∈ allGuesses := (mem_allGuesses _).mpr (by decide)
  have h2 : (⟨[0, 0, 0, 2], rfl⟩ : Guess) ∈ allGuesses := (mem_allGuesses _).mpr (by decide)
  have hne : (⟨[0, 0, 0, 1], rfl⟩ : Guess) ≠ ⟨[0, 0, 0, 2], rfl⟩ := by decide
  have a1 : AllowsAll [{ guess := ⟨[0, 0, 0, 0], rfl⟩, answer := { blacks := 3, whites := 0 } }] ⟨[0, 0, 0, 1], rfl⟩ = true := by decide
  have a2 : AllowsAll [{ guess := ⟨[0, 0, 0, 0], rfl⟩, answer := { blacks := 3, whites := 0 } }] ⟨[0, 0, 0, 2], rfl⟩ = true := by decide
  exact ⟨⟨hf, h1, h2, hne, a1, a2⟩,
    C19_first_possible_codeword (fun x : ℚ => x) _ hf _ _ h1 h2 hne a1 a2⟩

end MasterMind
